import Mathlib

/-!
Verification development for the TapDictionary batch dictionary builders.

The development shallowly embeds the two orchestrator scripts
`glosbe_dictionary_builder.py` (namespace `Glos`) and
`google_translate_dictionary_builder.py` (namespace `GT`).  Pure helper
functions are translated to Lean functions; the stateful builder objects
become explicit state records threaded through the batch loop; the
side-effecting calls (connector dispatch, progress checkpointing, the
final artifact write and the problematic-words report) are recorded as an
event trace.  Python dicts are modelled as association lists that keep
insertion order (updates in place, new keys appended); Python sets are
modelled as duplicate-free lists in insertion order (set iteration order
is unspecified in Python; every property proved below is independent of
that order, and where the scripts iterate over a set the model iterates
its list).  The connector (`get_translation`, `get_similar_phrases`) is a
pluggable function parameter, as the spec treats it.
-/

/-! ### Python string primitives -/

/-- Characters removed by Python `str.strip()` with no arguments. -/
def pyIsSpace (c : Char) : Bool :=
  c = ' ' || c = '\t' || c = '\n' || c = '\r' || c = '\x0b' || c = '\x0c'

/-- Model of Python `str.strip()` on a character list. -/
def pyStripL (l : List Char) : List Char :=
  ((l.dropWhile pyIsSpace).reverse.dropWhile pyIsSpace).reverse

/-- Model of Python `str.strip()`. -/
def pyStrip (s : String) : String := String.mk (pyStripL s.toList)

/-- Split a character list at the first occurrence of `sep`, as Python
`str.split(sep, 1)` does when the separator occurs; `none` when it does
not occur (Python's `'|' in line` test). -/
def splitFirst (sep : Char) : List Char → Option (List Char × List Char)
  | [] => none
  | c :: rest =>
    if c = sep then some ([], rest)
    else match splitFirst sep rest with
      | none => none
      | some (a, b) => some (c :: a, b)

/-- Lexicographic code-point comparison of character lists, the order
Python `sorted` uses on `str`. -/
def strLeL : List Char → List Char → Bool
  | [], _ => true
  | _ :: _, [] => false
  | c :: cs, d :: ds =>
    if c.val.toNat < d.val.toNat then true
    else if d.val.toNat < c.val.toNat then false
    else strLeL cs ds

/-- Lexicographic code-point comparison of strings. -/
def strLe (a b : String) : Bool := strLeL a.toList b.toList

/-- Insert a string into a sorted list (helper for `pySorted`). -/
def insSorted (a : String) : List String → List String
  | [] => [a]
  | b :: l => if strLe a b then a :: b :: l else b :: insSorted a l

/-- Model of Python `sorted` on a list of strings. -/
def pySorted (l : List String) : List String := l.foldr insSorted []

/-! ### Python dict and set models -/

/-- Keys of a dict in insertion order. -/
def dkeys {β : Type} (m : List (String × β)) : List String := m.map Prod.fst

/-- Membership test `k in m` for a dict. -/
def dhas {β : Type} (m : List (String × β)) (k : String) : Bool := (dkeys m).contains k

/-- Lookup `m[k]` for a dict (`none` when absent). -/
def dget {β : Type} (m : List (String × β)) (k : String) : Option β :=
  (m.find? (fun p => p.1 == k)).map Prod.snd

/-- Assignment `m[k] = v` for a dict: an existing key is updated in place,
a new key is appended, matching Python dict insertion-order semantics. -/
def dinsert {β : Type} (m : List (String × β)) (k : String) (v : β) : List (String × β) :=
  if dhas m k then m.map (fun p => if p.1 == k then (k, v) else p) else m ++ [(k, v)]

/-- Python `set.add`: no-op when the element is present, else appended. -/
def sadd (s : List String) (w : String) : List String :=
  if s.contains w then s else s ++ [w]

/-- Python `set.discard`: removes the element when present. -/
def sdiscard (s : List String) (w : String) : List String :=
  s.filter (fun x => x != w)

/-- Python `set(l)` built from a list: duplicates collapse to the first
occurrence. -/
def sOfList (l : List String) : List String := l.foldl sadd []

/-! ### Batch partitioning

Models the loop header `for i in range(0, len(pairs), batch_size)` with
`batch = pairs[i:i + batch_size]`: the list is cut into consecutive
chunks of `bs` elements (the scripts only call it with `bs = 100` and
`bs = 25`; the degenerate `bs = 0`, an error in Python, is mapped to a
single chunk so that the chunks always concatenate back to the input). -/
def chunksGo {α : Type} (bs : ℕ) : List α → List α → ℕ → List (List α)
  | [], acc, _ => [acc.reverse]
  | a :: t, acc, k =>
    match k with
    | 0 => acc.reverse :: chunksGo bs t [a] (bs - 1)
    | k2 + 1 => chunksGo bs t (a :: acc) k2

def chunks {α : Type} (bs : ℕ) (l : List α) : List (List α) :=
  match l with
  | [] => []
  | a :: t => if bs = 0 then [a :: t] else chunksGo bs t [a] (bs - 1)

/-! ### Word-list loading

`DictionaryBuilder.load_word_list` in both scripts: strip each line, skip
blank lines and lines starting with the comment marker, split each
remaining line on the first separator into word and flags (both
stripped), then drop duplicate words keeping the first occurrence. -/

/-- Parse one line of the word list, as the loop body of `load_word_list`
does: `none` for a blank or comment line, otherwise the (word, flags)
pair appended to `word_flag_pairs`. -/
def parseLine (line : String) : Option (String × String) :=
  let s := pyStrip line
  if s = "" then none
  else if s.toList.head? = some '#' then none
  else
    match splitFirst '|' s.toList with
    | some (w, f) => some (pyStrip (String.mk w), pyStrip (String.mk f))
    | none => some (pyStrip s, "")

/-- Duplicate removal keeping the first occurrence of each word, with the
accumulated `seen` set (a list in the model). -/
def dedupFirst : List (String × String) → List String → List (String × String)
  | [], _ => []
  | (w, f) :: rest, seen =>
    if seen.contains w then dedupFirst rest seen
    else (w, f) :: dedupFirst rest (w :: seen)

/-- Model of `DictionaryBuilder.load_word_list`, applied to the lines of
the input file. -/
def load_word_list (lines : List String) : List (String × String) :=
  dedupFirst (lines.filterMap parseLine) []

/-! ### Persisted progress file

`progress.json` as written by `save_progress` and read by
`load_progress`.  `ProgressRecord` is the structured record; every field
is optional because `load_progress` reads each with `data.get(key,
default)`.  `FileContent` is the state of the file on disk:
`absent` (no file yet), `truncated` (the file was opened for writing --
which truncates it in place -- but the JSON document was not completely
written, so it does not parse), or `valid r`.  `fileDuringSave` gives the
on-disk content at each stage of a `save_progress` call, which opens
`progress.json` with mode `w` directly: stage 0 is before the `open`,
stage 1 is after the truncating `open` but before `json.dump` completed,
and stage 2 is after the dump completed. -/

structure ProgressRecord where
  translations : Option (List (String × String))
  examples : Option (List (String × List String))
  processed_words : Option (List String)
  problematic_words : Option (List String)
  results_count : Option ℕ
deriving DecidableEq

inductive FileContent
  | absent
  | truncated
  | valid (r : ProgressRecord)
deriving DecidableEq

inductive LoadError
  | jsonDecodeError
deriving DecidableEq

/-- On-disk content of `progress.json` at stage `k` of a `save_progress`
call that is overwriting `old` with the serialization of `r`. -/
def fileDuringSave (old : FileContent) (r : ProgressRecord) (k : ℕ) : FileContent :=
  match k with
  | 0 => old
  | 1 => FileContent.truncated
  | _ => FileContent.valid r

/-! ### The Google Translate builder (`google_translate_dictionary_builder.py`) -/

namespace GT

/-- In-memory state of `DictionaryBuilder`: `translations` (dict word to
translation), `processed_words` and `problematic_words` (sets). -/
structure BState where
  translations : List (String × String)
  processed : List String
  problematic : List String
deriving DecidableEq

/-- The empty state a fresh `DictionaryBuilder` starts with. -/
def initState : BState := ⟨[], [], []⟩

/-- Observable events of a run: a connector dispatch for a word, a
`save_progress` checkpoint (carrying the state written and the
`results_count`), the final `save_yomichan` artifact write (the
ResultSink, carrying the results dict: word to (translation, flags)),
and the `save_problematic_words` report. -/
inductive Ev
  | dispatch (w : String)
  | checkpoint (st : BState) (resultsCount : ℕ)
  | sink (entries : List (String × String × String))
  | report (ws : List String)
deriving DecidableEq

/-- Model of `DictionaryBuilder.process_word`: one connector call
(`client.get_translation`), validated; `none` on a missing or blank
translation (exceptions inside the worker are caught and also yield
`None`, so the connector parameter is a total function into `Option`). -/
def process_word (conn : String → Option String) (w : String) : Option String :=
  match conn w with
  | none => none
  | some t => if pyStrip t = "" then none else some (pyStrip t)

/-- Body of the `as_completed` loop for one resolved future: a success is
recorded in `results` and `translations` and discarded from
`problematic`; a failure is added to `problematic`; the word is marked
processed either way. -/
def record (st : BState) (res : List (String × String × String)) (w f : String)
    (t? : Option String) : BState × List (String × String × String) :=
  match t? with
  | some t =>
    (⟨dinsert st.translations w t, sadd st.processed w, sdiscard st.problematic w⟩,
      dinsert res w (t, f))
  | none =>
    (⟨st.translations, sadd st.processed w, sadd st.problematic w⟩, res)

/-- Result of a run: final builder state, the `results` dict of the run,
and the event trace. -/
structure Run where
  st : BState
  results : List (String × String × String)
  trace : List Ev
deriving DecidableEq

/-- Words of a batch that are dispatched: the batch minus the words
already in `processed_words` (the filter at the top of the batch loop). -/
def toDispatch (st : BState) (batch : List (String × String)) : List (String × String) :=
  batch.filter (fun p => !(st.processed.contains p.1))

/-- One batch: dispatch every not-yet-processed word of the batch and
fold the resolved outcomes into the state.  `as_completed` yields the
futures in an unspecified order; the words of a batch are pairwise
distinct, each outcome only touches its own word's entries, so the
resulting state does not depend on that order and the model folds in
submission order. -/
def runBatch (conn : String → Option String) (st : BState)
    (res : List (String × String × String)) (batch : List (String × String)) :
    BState × List (String × String × String) :=
  (toDispatch st batch).foldl
    (fun acc p => record acc.1 acc.2 p.1 p.2 (process_word conn p.1)) (st, res)

/-- The batch loop of `process_words`: each batch is dispatched, then
`save_progress` checkpoints the full state before the next batch starts. -/
def runBatches (conn : String → Option String) :
    List (List (String × String)) → BState → List (String × String × String) → Run
  | [], st, res => ⟨st, res, []⟩
  | b :: bs, st, res =>
    let toDo := toDispatch st b
    let step := runBatch conn st res b
    let rest := runBatches conn bs step.1 step.2
    ⟨rest.st, rest.results,
      toDo.map (fun p => Ev.dispatch p.1) ++ Ev.checkpoint step.1 step.2.length :: rest.trace⟩

/-- Model of `DictionaryBuilder.process_words` (default batch size 100). -/
def process_words (conn : String → Option String) (batchSize : ℕ)
    (pairs : List (String × String)) (st : BState) : Run :=
  runBatches conn (chunks batchSize pairs) st []

/-- The record `save_progress` serializes to `progress.json` (the google
builder has no `examples` key). -/
def save_progress (st : BState) (resultsCount : ℕ) : ProgressRecord :=
  { translations := some st.translations
    examples := none
    processed_words := some st.processed
    problematic_words := some st.problematic
    results_count := some resultsCount }

/-- Model of `DictionaryBuilder.load_progress`: a missing file
(`FileNotFoundError`) is caught and leaves the state untouched; a file
that does not parse as JSON raises `json.JSONDecodeError`, which is not
caught; a parsed record fills each field with `data.get(key, default)`. -/
def load_progress (fc : FileContent) (st : BState) : Except LoadError BState :=
  match fc with
  | FileContent.absent => Except.ok st
  | FileContent.truncated => Except.error LoadError.jsonDecodeError
  | FileContent.valid r =>
    Except.ok ⟨(r.translations).getD [],
      sOfList ((r.processed_words).getD []),
      sOfList ((r.problematic_words).getD [])⟩

/-- The dict comprehension `word_to_flags` in `main`. -/
def word_to_flags (pairs : List (String × String)) : List (String × String) :=
  pairs.foldl (fun m p => dinsert m p.1 p.2) []

/-- The `problematic_to_retry` list in `main`: previously problematic
words that appear in the current word list, in the iteration order of
the `problematic_words` set (its list order in the model), each paired
with its flags. -/
def problematic_to_retry (s0 : BState) (wtf : List (String × String)) :
    List (String × String) :=
  s0.problematic.filterMap (fun w => (dget wtf w).map (fun f => (w, f)))

/-- The `words_to_process` list in `main`: problematic words first, then
words neither processed nor problematic. -/
def words_to_process (s0 : BState) (pairs : List (String × String)) :
    List (String × String) :=
  problematic_to_retry s0 (word_to_flags pairs) ++
    pairs.filter (fun p => !(s0.processed.contains p.1) && !(s0.problematic.contains p.1))

/-- Model of `main` from the point after `load_progress`: `s0` is the
loaded state and `lines` the word-list file.  When nothing needs
processing, `results` is rebuilt from the accumulated translations
restricted to the current word list; otherwise `process_words` runs.
`save_problematic_words` (the report) and `save_yomichan` (the sink)
close the run. -/
def mainRun (conn : String → Option String) (s0 : BState) (lines : List String) : Run :=
  let pairs := load_word_list lines
  let wtp := words_to_process s0 pairs
  let r : Run :=
    if wtp.isEmpty then
      ⟨s0,
        s0.translations.filterMap
          (fun p => if dhas (word_to_flags pairs) p.1
            then some (p.1, p.2, (dget (word_to_flags pairs) p.1).getD "")
            else none),
        []⟩
    else process_words conn 100 wtp s0
  ⟨r.st, r.results,
    r.trace ++ [Ev.report (pySorted r.st.problematic), Ev.sink r.results]⟩

/-- Connector dispatches recorded in a trace, in order. -/
def dispatches (tr : List Ev) : List String :=
  tr.filterMap (fun e => match e with | Ev.dispatch w => some w | _ => none)

/-- Number of connector dispatches for one word in a trace. -/
def dispatchCount (tr : List Ev) (w : String) : ℕ := (dispatches tr).count w

/-- Payloads of the sink (`save_yomichan`) calls recorded in a trace. -/
def sinkEvents (tr : List Ev) : List (List (String × String × String)) :=
  tr.filterMap (fun e => match e with | Ev.sink d => some d | _ => none)

/-- States written by the `save_progress` checkpoints of a trace. -/
def checkpoints (tr : List Ev) : List BState :=
  tr.filterMap (fun e => match e with | Ev.checkpoint st _ => some st | _ => none)

end GT

/-! ### The Glosbe builder (`glosbe_dictionary_builder.py`) -/

namespace Glos

/-- In-memory state of the glosbe `DictionaryBuilder`: like the google
one plus the `examples` dict (word to example phrases). -/
structure BState where
  translations : List (String × String)
  examples : List (String × List String)
  processed : List String
  problematic : List String
deriving DecidableEq

/-- The empty state a fresh glosbe `DictionaryBuilder` starts with. -/
def initState : BState := ⟨[], [], [], []⟩

/-- Observable events of a glosbe run; the sink payload is the results
dict entry: word to (translation, flags, examples). -/
inductive Ev
  | dispatch (w : String)
  | checkpoint (st : BState) (resultsCount : ℕ)
  | sink (entries : List (String × String × String × List String))
  | report (ws : List String)
deriving DecidableEq

/-- Model of the glosbe `DictionaryBuilder.process_word`: one connector
call yielding the (optional) translation and the example phrases
(`get_translation` and `get_similar_phrases`; both catch their own
exceptions, so the connector is total).  An invalid translation yields
`none` -- the `problematic_words.add` that `process_word` performs in
that branch is applied in `record` below, which is where the model
threads the state. -/
def process_word (conn : String → Option String × List String) (w : String) :
    Option String × List String :=
  match conn w with
  | (none, exs) => (none, exs)
  | (some t, exs) => if pyStrip t = "" then (none, exs) else (some (pyStrip t), exs)

/-- Body of the glosbe `as_completed` loop for one resolved future plus
the `problematic_words.add` from `process_word`'s invalid branch: a
success is recorded in `results`, `translations` and `examples` (with
no removal from `problematic`); a failure adds the word to
`problematic`; the word is marked processed either way. -/
def record (st : BState) (res : List (String × String × String × List String))
    (w f : String) (o : Option String × List String) :
    BState × List (String × String × String × List String) :=
  match o with
  | (some t, exs) =>
    (⟨dinsert st.translations w t, dinsert st.examples w exs, sadd st.processed w,
        st.problematic⟩,
      dinsert res w (t, f, exs))
  | (none, _) =>
    (⟨st.translations, st.examples, sadd st.processed w, sadd st.problematic w⟩, res)

/-- Result of a glosbe run. -/
structure Run where
  st : BState
  results : List (String × String × String × List String)
  trace : List Ev
deriving DecidableEq

/-- Words of a batch that are dispatched (the filter at the top of the
glosbe batch loop). -/
def toDispatch (st : BState) (batch : List (String × String)) : List (String × String) :=
  batch.filter (fun p => !(st.processed.contains p.1))

/-- One glosbe batch, folded in submission order (see `GT.runBatch` for
why the fold order does not matter). -/
def runBatch (conn : String → Option String × List String) (st : BState)
    (res : List (String × String × String × List String)) (batch : List (String × String)) :
    BState × List (String × String × String × List String) :=
  (toDispatch st batch).foldl
    (fun acc p => record acc.1 acc.2 p.1 p.2 (process_word conn p.1)) (st, res)

/-- The glosbe batch loop with a `save_progress` checkpoint after every
batch. -/
def runBatches (conn : String → Option String × List String) :
    List (List (String × String)) → BState →
      List (String × String × String × List String) → Run
  | [], st, res => ⟨st, res, []⟩
  | b :: bs, st, res =>
    let toDo := toDispatch st b
    let step := runBatch conn st res b
    let rest := runBatches conn bs step.1 step.2
    ⟨rest.st, rest.results,
      toDo.map (fun p => Ev.dispatch p.1) ++ Ev.checkpoint step.1 step.2.length :: rest.trace⟩

/-- Model of the glosbe `DictionaryBuilder.process_words` (`main` calls
it with batch size 25). -/
def process_words (conn : String → Option String × List String) (batchSize : ℕ)
    (pairs : List (String × String)) (st : BState) : Run :=
  runBatches conn (chunks batchSize pairs) st []

/-- The record the glosbe `save_progress` serializes to `progress.json`
(it includes the `examples` key). -/
def save_progress (st : BState) (resultsCount : ℕ) : ProgressRecord :=
  { translations := some st.translations
    examples := some st.examples
    processed_words := some st.processed
    problematic_words := some st.problematic
    results_count := some resultsCount }

/-- Model of the glosbe `DictionaryBuilder.load_progress` (same shape as
the google one, plus the `examples` field). -/
def load_progress (fc : FileContent) (st : BState) : Except LoadError BState :=
  match fc with
  | FileContent.absent => Except.ok st
  | FileContent.truncated => Except.error LoadError.jsonDecodeError
  | FileContent.valid r =>
    Except.ok ⟨(r.translations).getD [], (r.examples).getD [],
      sOfList ((r.processed_words).getD []),
      sOfList ((r.problematic_words).getD [])⟩

/-- The glosbe `words_to_process`: the word list minus already-processed
words, with no prioritization of problematic words. -/
def words_to_process (s0 : BState) (pairs : List (String × String)) :
    List (String × String) :=
  pairs.filter (fun p => !(s0.processed.contains p.1))

/-- Model of the glosbe `main` from the point after `load_progress`.
When nothing needs processing, `results` stays empty.  The closing block
of `main` is duplicated in the source (lines 652-662), so the report and
the sink are each written twice. -/
def mainRun (conn : String → Option String × List String) (s0 : BState)
    (lines : List String) : Run :=
  let pairs := load_word_list lines
  let wtp := words_to_process s0 pairs
  let r : Run :=
    if wtp.isEmpty then ⟨s0, [], []⟩
    else process_words conn 25 wtp s0
  ⟨r.st, r.results,
    r.trace ++ [Ev.report (pySorted r.st.problematic), Ev.sink r.results,
      Ev.report (pySorted r.st.problematic), Ev.sink r.results]⟩

/-- Connector dispatches recorded in a glosbe trace, in order. -/
def dispatches (tr : List Ev) : List String :=
  tr.filterMap (fun e => match e with | Ev.dispatch w => some w | _ => none)

/-- Number of connector dispatches for one word in a glosbe trace. -/
def dispatchCount (tr : List Ev) (w : String) : ℕ := (dispatches tr).count w

/-- Payloads of the sink (`save_yomichan`) calls in a glosbe trace. -/
def sinkEvents (tr : List Ev) : List (List (String × String × String × List String)) :=
  tr.filterMap (fun e => match e with | Ev.sink d => some d | _ => none)

/-- States written by the `save_progress` checkpoints of a glosbe trace. -/
def checkpoints (tr : List Ev) : List BState :=
  tr.filterMap (fun e => match e with | Ev.checkpoint st _ => some st | _ => none)

end Glos

/-! ### The rate limiter (`_rate_limit` in both clients)

Both clients keep `last_request_time` and sleep until `min_request_interval`
has passed since it, then set `last_request_time` to the current time and
count the request.  Time is modelled by a logical clock measured in fixed
time units (the code uses seconds as floats; nothing below depends on the
unit): `time.sleep(d)` advances the clock by `d`, `time.time()` reads it.

The google client (`GoogleTranslateClient._rate_limit`) holds
`self.lock` around the whole read/compute-wait/update sequence, so its
acquisitions are serialized and `RL.rate_limit` below is the body of
that critical section; `RL.acquireRun` is a serialized run of `M`
acquisitions with arbitrary extra clock advance before each one.

The glosbe client (`GlosbeClient._rate_limit`) has the same body but no
lock, so steps of concurrent callers interleave: `RL.UMachine` runs two
concurrent callers of the glosbe `_rate_limit` with an explicit
schedule.  Each caller first reads the clock and `last_request_time`
(program counter 0 to 1), then sleeps as computed and writes
`last_request_time` back, issuing its request (program counter 1 to 2). -/

namespace RL

/-- Client state seen by `_rate_limit`: the logical clock, the shared
`last_request_time`, and `request_count`. -/
structure LState where
  clock : ℤ
  last : ℤ
  count : ℕ
deriving DecidableEq

/-- One serialized execution of the `_rate_limit` body with minimum
interval `T`: read the clock, sleep the remaining interval if the last
grant is closer than `T`, re-read the clock into `last_request_time`,
count the request.  Returns the new state and the grant time. -/
def rate_limit (T : ℤ) (s : LState) : LState × ℤ :=
  let current := s.clock
  let tsl := current - s.last
  let clock2 := if tsl < T then current + (T - tsl) else current
  (⟨clock2, clock2, s.count + 1⟩, clock2)

/-- A serialized run of acquisitions: before each one the clock advances
by the corresponding list element (time the worker spends elsewhere).
Returns the grant times in order. -/
def acquireRun (T : ℤ) (s : LState) : List ℤ → List ℤ
  | [] => []
  | d :: ds =>
    let s2 : LState := ⟨s.clock + d, s.last, s.count⟩
    let g := rate_limit T s2
    g.2 :: acquireRun T g.1 ds

/-- One of two concurrent callers of the glosbe (unlocked) `_rate_limit`:
its program counter and the `time_since_last` it read. -/
structure UThread where
  pc : ℕ
  tsl : ℤ
deriving DecidableEq

/-- Shared state of the unlocked glosbe rate limiter with two concurrent
callers: clock, shared `last_request_time`, both threads, and the grant
times issued so far. -/
structure UMachine where
  clock : ℤ
  last : ℤ
  t0 : UThread
  t1 : UThread
  grants : List ℤ
deriving DecidableEq

/-- One interleaving step of the chosen thread.  At program counter 0 the
thread reads the clock and `last_request_time` and computes
`time_since_last`; at 1 it sleeps the computed remainder (if any),
writes `last_request_time`, and issues its request. -/
def ustep (T : ℤ) (m : UMachine) (tid : Bool) : UMachine :=
  let t := if tid then m.t1 else m.t0
  match t.pc with
  | 0 =>
    let t2 : UThread := ⟨1, m.clock - m.last⟩
    if tid then { m with t1 := t2 } else { m with t0 := t2 }
  | 1 =>
    let clock2 := if t.tsl < T then m.clock + (T - t.tsl) else m.clock
    let t2 : UThread := ⟨2, t.tsl⟩
    if tid then
      { m with clock := clock2, last := clock2, grants := m.grants ++ [clock2], t1 := t2 }
    else
      { m with clock := clock2, last := clock2, grants := m.grants ++ [clock2], t0 := t2 }
  | _ => m

/-- Run the two concurrent callers under an explicit schedule. -/
def urun (T : ℤ) (sched : List Bool) (m : UMachine) : UMachine :=
  sched.foldl (ustep T) m

end RL

/-! ### Derived definitions used by the statements and proofs -/

namespace GT

/-- Fold of resolved outcomes over a list of work items (the
`as_completed` loop of one batch, before the already-processed filter). -/
def foldRecord (conn : String → Option String) (l : List (String × String))
    (st : BState) (res : List (String × String × String)) :
    BState × List (String × String × String) :=
  l.foldl (fun acc p => record acc.1 acc.2 p.1 p.2 (process_word conn p.1)) (st, res)

/-- Well-formedness of a builder state: the fields that model Python sets
and dict keys contain no duplicates (every state the script can build has
this, since Python sets and dicts cannot hold duplicate elements/keys). -/
def Wf (st : BState) : Prop :=
  st.processed.Nodup ∧ st.problematic.Nodup ∧ (dkeys st.translations).Nodup

/-- The ProgressState invariant of the spec: succeeded keys are a subset
of processed, and problematic is disjoint from the succeeded keys. -/
def Inv (st : BState) : Prop :=
  (∀ x ∈ dkeys st.translations, x ∈ st.processed) ∧
  (∀ x ∈ st.problematic, x ∉ dkeys st.translations)

end GT

namespace Glos

/-- Fold of resolved outcomes over a list of work items (glosbe). -/
def foldRecord (conn : String → Option String × List String) (l : List (String × String))
    (st : BState) (res : List (String × String × String × List String)) :
    BState × List (String × String × String × List String) :=
  l.foldl (fun acc p => record acc.1 acc.2 p.1 p.2 (process_word conn p.1)) (st, res)

/-- Well-formedness of a glosbe builder state (no duplicates in the
set/dict-key fields). -/
def Wf (st : BState) : Prop :=
  st.processed.Nodup ∧ st.problematic.Nodup ∧ (dkeys st.translations).Nodup

/-- The ProgressState invariant of the spec for the glosbe builder. -/
def Inv (st : BState) : Prop :=
  (∀ x ∈ dkeys st.translations, x ∈ st.processed) ∧
  (∀ x ∈ st.problematic, x ∉ dkeys st.translations)

/-- The strengthened invariant every automated glosbe/google run
maintains: `Inv` plus problematic words being contained in processed. -/
def InvAuto (st : BState) : Prop :=
  Inv st ∧ ∀ x ∈ st.problematic, x ∈ st.processed

end Glos

/-! ### Basic lemmas about the set and dict models -/

theorem contains_iff {l : List String} {a : String} : l.contains a = true ↔ a ∈ l := by
  simp [List.contains]

theorem mem_sadd {s : List String} {w x : String} : x ∈ sadd s w ↔ x ∈ s ∨ x = w := by
  by_cases hm : w ∈ s
  · rw [sadd, if_pos (contains_iff.mpr hm)]
    constructor
    · exact Or.inl
    · rintro (hx | rfl)
      · exact hx
      · exact hm
  · have hc : ¬ s.contains w = true := fun hc => hm (contains_iff.mp hc)
    rw [sadd, if_neg hc]
    simp [List.mem_append]

theorem sadd_nodup {s : List String} {w : String} (h : s.Nodup) : (sadd s w).Nodup := by
  by_cases hm : w ∈ s
  · rwa [sadd, if_pos (contains_iff.mpr hm)]
  · have hc : ¬ s.contains w = true := fun hc => hm (contains_iff.mp hc)
    rw [sadd, if_neg hc]
    simp [List.nodup_append, h, hm]

theorem mem_sdiscard {s : List String} {w x : String} :
    x ∈ sdiscard s w ↔ x ∈ s ∧ x ≠ w := by
  simp [sdiscard]

theorem sdiscard_nodup {s : List String} {w : String} (h : s.Nodup) :
    (sdiscard s w).Nodup := List.Nodup.filter _ h

theorem sOfList_nodup (l : List String) : (sOfList l).Nodup := by
  have key : ∀ (l acc : List String), acc.Nodup → (l.foldl sadd acc).Nodup := by
    intro l
    induction l with
    | nil => intro acc h; simpa using h
    | cons a t ih => intro acc h; exact ih _ (sadd_nodup h)
  exact key l [] List.nodup_nil

theorem sOfList_eq_of_nodup {l : List String} (h : l.Nodup) : sOfList l = l := by
  have key : ∀ (l acc : List String), (∀ x ∈ acc, x ∉ l) → l.Nodup →
      l.foldl sadd acc = acc ++ l := by
    intro l
    induction l with
    | nil => intro acc _ _; simp
    | cons a t ih =>
      intro acc hdisj hl
      have hna : a ∉ acc := fun hmem => hdisj a hmem (List.mem_cons_self a t)
      have hc : ¬ acc.contains a = true := fun hcc => hna (contains_iff.mp hcc)
      have step : sadd acc a = acc ++ [a] := by rw [sadd, if_neg hc]
      have h2 : ∀ x ∈ acc ++ [a], x ∉ t := by
        intro x hx
        rcases List.mem_append.mp hx with hx | hx
        · intro ht
          exact hdisj x hx (List.mem_cons_of_mem _ ht)
        · rcases List.mem_singleton.mp hx with rfl
          exact (List.nodup_cons.mp hl).1
      calc (a :: t).foldl sadd acc = t.foldl sadd (sadd acc a) := by rw [List.foldl_cons]
        _ = t.foldl sadd (acc ++ [a]) := by rw [step]
        _ = (acc ++ [a]) ++ t := ih (acc ++ [a]) h2 (List.nodup_cons.mp hl).2
        _ = acc ++ a :: t := by simp
  simpa [sOfList] using key l [] (by simp) h

theorem mem_dkeys {β : Type} {m : List (String × β)} {x : String} :
    x ∈ dkeys m ↔ ∃ v, (x, v) ∈ m := by
  simp only [dkeys, List.mem_map]
  constructor
  · rintro ⟨⟨a, b⟩, hm, rfl⟩
    exact ⟨b, hm⟩
  · rintro ⟨v, hv⟩
    exact ⟨(x, v), hv, rfl⟩

theorem dhas_iff {β : Type} {m : List (String × β)} {k : String} :
    dhas m k = true ↔ k ∈ dkeys m := by
  simp [dhas, List.contains]

theorem dget_eq_none {β : Type} {m : List (String × β)} {k : String} :
    dget m k = none ↔ k ∉ dkeys m := by
  constructor
  · intro h hk
    rcases mem_dkeys.mp hk with ⟨v, hv⟩
    rcases hf : m.find? (fun p => p.1 == k) with _ | p
    · have := List.find?_eq_none.mp hf (k, v) hv
      simp at this
    · rw [dget, hf] at h
      simp at h
  · intro h
    have hf : m.find? (fun p => p.1 == k) = none := by
      apply List.find?_eq_none.mpr
      intro p hp
      simp only [beq_iff_eq]
      intro hpk
      refine h (mem_dkeys.mpr ⟨p.2, ?_⟩)
      rw [← hpk]
      simpa using hp
    rw [dget, hf]
    rfl

theorem dget_isSome {β : Type} {m : List (String × β)} {k : String} :
    (dget m k).isSome = true ↔ k ∈ dkeys m := by
  constructor
  · intro hs
    by_contra hk
    rw [dget_eq_none.mpr hk] at hs
    simp at hs
  · intro hk
    rcases h : dget m k with _ | v
    · exact absurd (dget_eq_none.mp h) (by simpa using hk)
    · simp

theorem dkeys_cons {β : Type} {p : String × β} {rest : List (String × β)} :
    dkeys (p :: rest) = p.1 :: dkeys rest := rfl

theorem dget_nil {β : Type} {x : String} : dget ([] : List (String × β)) x = none := rfl

theorem dget_cons_self {β : Type} {p : String × β} {rest : List (String × β)} {x : String}
    (h : p.1 = x) : dget (p :: rest) x = some p.2 := by
  show (List.find? (fun q => q.1 == x) (p :: rest)).map Prod.snd = some p.2
  rw [List.find?_cons_of_pos _ (by simpa using h)]
  rfl

theorem dget_cons_ne {β : Type} {p : String × β} {rest : List (String × β)} {x : String}
    (h : p.1 ≠ x) : dget (p :: rest) x = dget rest x := by
  show (List.find? (fun q => q.1 == x) (p :: rest)).map Prod.snd = _
  rw [List.find?_cons_of_neg _ (by simpa using h)]
  rfl

theorem dget_map_update_ne {β : Type} {k x : String} {v : β} (m : List (String × β))
    (h : x ≠ k) :
    dget (m.map (fun p => if p.1 == k then (k, v) else p)) x = dget m x := by
  induction m with
  | nil => rfl
  | cons p rest ih =>
    rw [List.map_cons]
    by_cases hp : p.1 = k
    · have h1 : ((if p.1 == k then (k, v) else p) : String × β) = (k, v) := by simp [hp]
      rw [h1, dget_cons_ne (fun hh => h hh.symm), ih, dget_cons_ne]
      rw [hp]
      exact fun hh => h hh.symm
    · have h1 : ((if p.1 == k then (k, v) else p) : String × β) = p := by simp [hp]
      rw [h1]
      by_cases hpx : p.1 = x
      · rw [dget_cons_self hpx, dget_cons_self hpx]
      · rw [dget_cons_ne hpx, dget_cons_ne hpx, ih]

theorem dget_map_update_self {β : Type} {k : String} {v : β} (m : List (String × β))
    (h : k ∈ dkeys m) :
    dget (m.map (fun p => if p.1 == k then (k, v) else p)) k = some v := by
  induction m with
  | nil => simp [dkeys] at h
  | cons p rest ih =>
    rw [List.map_cons]
    by_cases hp : p.1 = k
    · have h1 : ((if p.1 == k then (k, v) else p) : String × β) = (k, v) := by simp [hp]
      rw [h1, dget_cons_self rfl]
    · have h1 : ((if p.1 == k then (k, v) else p) : String × β) = p := by simp [hp]
      have h2 : k ∈ dkeys rest := by
        rcases List.mem_cons.mp (by simpa [dkeys_cons] using h) with h3 | h3
        · exact absurd h3.symm hp
        · exact h3
      rw [h1, dget_cons_ne hp, ih h2]

theorem dget_append_single_ne {β : Type} {k x : String} {v : β} (m : List (String × β))
    (h : x ≠ k) : dget (m ++ [(k, v)]) x = dget m x := by
  induction m with
  | nil =>
    rw [List.nil_append, dget_cons_ne (fun hh => h hh.symm)]
  | cons p rest ih =>
    rw [List.cons_append]
    by_cases hpx : p.1 = x
    · rw [dget_cons_self hpx, dget_cons_self hpx]
    · rw [dget_cons_ne hpx, dget_cons_ne hpx, ih]

theorem dget_append_single_self {β : Type} {k : String} {v : β} (m : List (String × β))
    (h : k ∉ dkeys m) : dget (m ++ [(k, v)]) k = some v := by
  induction m with
  | nil => exact dget_cons_self rfl
  | cons p rest ih =>
    rw [List.cons_append]
    have hp : p.1 ≠ k := by
      intro hh
      exact h (by simp [dkeys_cons, hh])
    have h2 : k ∉ dkeys rest := by
      intro hh
      exact h (by simp [dkeys_cons, hh])
    rw [dget_cons_ne hp, ih h2]

theorem dget_dinsert_self {β : Type} {m : List (String × β)} {k : String} {v : β} :
    dget (dinsert m k v) k = some v := by
  by_cases hk : dhas m k
  · rw [dinsert, if_pos hk]
    exact dget_map_update_self m (dhas_iff.mp hk)
  · rw [dinsert, if_neg hk]
    exact dget_append_single_self m (fun h => hk (dhas_iff.mpr h))

theorem dget_dinsert_ne {β : Type} {m : List (String × β)} {k x : String} {v : β}
    (h : x ≠ k) : dget (dinsert m k v) x = dget m x := by
  by_cases hk : dhas m k
  · rw [dinsert, if_pos hk]
    exact dget_map_update_ne m h
  · rw [dinsert, if_neg hk]
    exact dget_append_single_ne m h

theorem mem_dkeys_dinsert {β : Type} {m : List (String × β)} {k x : String} {v : β} :
    x ∈ dkeys (dinsert m k v) ↔ x ∈ dkeys m ∨ x = k := by
  by_cases hx : x = k
  · subst hx
    simp only [or_true, iff_true]
    rw [← dget_isSome, dget_dinsert_self]
    rfl
  · rw [← dget_isSome, dget_dinsert_ne hx, dget_isSome]
    simp [hx]

theorem dkeys_dinsert_nodup {β : Type} {m : List (String × β)} {k : String} {v : β}
    (h : (dkeys m).Nodup) : (dkeys (dinsert m k v)).Nodup := by
  by_cases hk : dhas m k
  · rw [dinsert, if_pos hk]
    have heq : dkeys (m.map (fun p => if p.1 == k then (k, v) else p)) = dkeys m := by
      simp only [dkeys, List.map_map]
      congr 1
      funext p
      by_cases hp : p.1 = k
      · simp [hp]
      · simp [hp]
    rwa [heq]
  · rw [dinsert, if_neg hk]
    have hmem : k ∉ dkeys m := fun hh => hk (dhas_iff.mpr hh)
    have heq : dkeys (m ++ [(k, v)]) = dkeys m ++ [k] := by simp [dkeys]
    rw [heq]
    simp [List.nodup_append, h, hmem]

/-! ### Lemmas about the google builder -/

namespace GT

theorem record_processed_iff {st : BState} {res : List (String × String × String)}
    {w f x : String} {o : Option String} :
    x ∈ (record st res w f o).1.processed ↔ x ∈ st.processed ∨ x = w := by
  cases o <;> simp [record, mem_sadd]

theorem record_translations_ne {st : BState} {res : List (String × String × String)}
    {w f x : String} {o : Option String} (h : x ≠ w) :
    dget (record st res w f o).1.translations x = dget st.translations x := by
  cases o <;> simp [record, dget_dinsert_ne h]

theorem record_problematic_ne {st : BState} {res : List (String × String × String)}
    {w f x : String} {o : Option String} (h : x ≠ w) :
    (x ∈ (record st res w f o).1.problematic ↔ x ∈ st.problematic) := by
  cases o with
  | none => simp [record, mem_sadd, h]
  | some t => simp [record, mem_sdiscard, h]

theorem record_results_ne {st : BState} {res : List (String × String × String)}
    {w f x : String} {o : Option String} (h : x ≠ w) :
    dget (record st res w f o).2 x = dget res x := by
  cases o <;> simp [record, dget_dinsert_ne h]

theorem record_success {st : BState} {res : List (String × String × String)}
    {w f t : String} :
    dget (record st res w f (some t)).1.translations w = some t ∧
    w ∉ (record st res w f (some t)).1.problematic ∧
    dget (record st res w f (some t)).2 w = some (t, f) := by
  refine ⟨by simp [record, dget_dinsert_self], ?_, by simp [record, dget_dinsert_self]⟩
  simp [record, mem_sdiscard]

theorem record_failure {st : BState} {res : List (String × String × String)}
    {w f : String} :
    w ∈ (record st res w f none).1.problematic ∧
    (record st res w f none).1.translations = st.translations ∧
    (record st res w f none).2 = res := by
  refine ⟨?_, rfl, rfl⟩
  simp [record, mem_sadd]

theorem record_wf {st : BState} {res : List (String × String × String)}
    {w f : String} {o : Option String} (h : Wf st) : Wf (record st res w f o).1 := by
  rcases h with ⟨h1, h2, h3⟩
  cases o with
  | none => exact ⟨sadd_nodup h1, sadd_nodup h2, h3⟩
  | some t => exact ⟨sadd_nodup h1, sdiscard_nodup h2, dkeys_dinsert_nodup h3⟩

theorem record_inv {st : BState} {res : List (String × String × String)}
    {w f : String} {o : Option String} (h : Inv st)
    (hw : w ∉ dkeys st.translations) : Inv (record st res w f o).1 := by
  rcases h with ⟨h1, h2⟩
  cases o with
  | none =>
    refine ⟨?_, ?_⟩
    · intro x hx
      exact mem_sadd.mpr (Or.inl (h1 x hx))
    · intro x hx
      rcases mem_sadd.mp hx with hx | rfl
      · exact h2 x hx
      · exact hw
  | some t =>
    refine ⟨?_, ?_⟩
    · intro x hx
      rcases mem_dkeys_dinsert.mp hx with hx | rfl
      · exact mem_sadd.mpr (Or.inl (h1 x hx))
      · exact mem_sadd.mpr (Or.inr rfl)
    · intro x hx
      rcases mem_sdiscard.mp hx with ⟨hx1, hx2⟩
      intro hmem
      rcases mem_dkeys_dinsert.mp hmem with hmem | rfl
      · exact h2 x hx1 hmem
      · exact hx2 rfl

theorem record_translations_keys {st : BState} {res : List (String × String × String)}
    {w f x : String} {o : Option String} :
    x ∈ dkeys (record st res w f o).1.translations →
      x ∈ dkeys st.translations ∨ x = w := by
  cases o with
  | none => exact fun h => Or.inl h
  | some t =>
    intro h
    exact mem_dkeys_dinsert.mp h

theorem foldRecord_nil {conn : String → Option String} {st : BState}
    {res : List (String × String × String)} : foldRecord conn [] st res = (st, res) := rfl

theorem foldRecord_cons {conn : String → Option String} {p : String × String}
    {l : List (String × String)} {st : BState} {res : List (String × String × String)} :
    foldRecord conn (p :: l) st res =
      foldRecord conn l (record st res p.1 p.2 (process_word conn p.1)).1
        (record st res p.1 p.2 (process_word conn p.1)).2 := by
  simp [foldRecord]

theorem foldRecord_processed_mono {conn : String → Option String}
    {l : List (String × String)} {x : String} :
    ∀ {st : BState} {res : List (String × String × String)},
      x ∈ st.processed → x ∈ (foldRecord conn l st res).1.processed := by
  induction l with
  | nil => intro st res h; simpa [foldRecord_nil] using h
  | cons p rest ih =>
    intro st res h
    rw [foldRecord_cons]
    exact ih (record_processed_iff.mpr (Or.inl h))

theorem foldRecord_processed_iff {conn : String → Option String}
    {l : List (String × String)} {x : String} :
    ∀ {st : BState} {res : List (String × String × String)},
      (x ∈ (foldRecord conn l st res).1.processed ↔
        x ∈ st.processed ∨ x ∈ l.map Prod.fst) := by
  induction l with
  | nil => intro st res; simp [foldRecord_nil]
  | cons p rest ih =>
    intro st res
    rw [foldRecord_cons]
    constructor
    · intro h
      rcases ih.mp h with h | h
      · rcases record_processed_iff.mp h with h | rfl
        · exact Or.inl h
        · exact Or.inr (by simp)
      · exact Or.inr (by simp [h])
    · intro h
      rcases h with h | h
      · exact ih.mpr (Or.inl (record_processed_iff.mpr (Or.inl h)))
      · rw [List.map_cons] at h
        rcases List.mem_cons.mp h with h | h
        · exact ih.mpr (Or.inl (record_processed_iff.mpr (Or.inr h)))
        · exact ih.mpr (Or.inr h)

theorem foldRecord_freeze {conn : String → Option String}
    {l : List (String × String)} {x : String} :
    ∀ {st : BState} {res : List (String × String × String)},
      x ∉ l.map Prod.fst →
      dget (foldRecord conn l st res).1.translations x = dget st.translations x ∧
      ((x ∈ (foldRecord conn l st res).1.problematic) ↔ x ∈ st.problematic) ∧
      dget (foldRecord conn l st res).2 x = dget res x := by
  induction l with
  | nil => intro st res _; simp [foldRecord_nil]
  | cons p rest ih =>
    intro st res hx
    have hne : x ≠ p.1 := by
      intro h
      exact hx (by simp [h])
    have hrest : x ∉ rest.map Prod.fst := by
      intro h
      exact hx (by simp [h])
    rw [foldRecord_cons]
    rcases ih hrest with ⟨ih1, ih2, ih3⟩
    exact ⟨ih1.trans (record_translations_ne hne),
      ih2.trans (record_problematic_ne hne),
      ih3.trans (record_results_ne hne)⟩

end GT

namespace GT

theorem foldRecord_hit_success {conn : String → Option String} {w f t : String} :
    ∀ {l : List (String × String)} {st : BState} {res : List (String × String × String)},
      (l.map Prod.fst).Nodup → (w, f) ∈ l → process_word conn w = some t →
      dget (foldRecord conn l st res).1.translations w = some t ∧
      w ∉ (foldRecord conn l st res).1.problematic ∧
      dget (foldRecord conn l st res).2 w = some (t, f) := by
  intro l
  induction l with
  | nil => intro st res _ hw; simp at hw
  | cons p rest ih =>
    intro st res hnd hw hpw
    rw [List.map_cons, List.nodup_cons] at hnd
    rcases List.mem_cons.mp hw with rfl | hw
    · have hfresh : w ∉ rest.map Prod.fst := hnd.1
      rw [foldRecord_cons]
      rcases foldRecord_freeze hfresh with ⟨h1, h2, h3⟩
      simp only [hpw] at h1 h2 h3 ⊢
      exact ⟨h1.trans record_success.1, fun hmem => record_success.2.1 (h2.mp hmem),
        h3.trans record_success.2.2⟩
    · have hne : p.1 ≠ w := by
        intro h
        exact hnd.1 (h ▸ List.mem_map.mpr ⟨(w, f), hw, rfl⟩)
      rw [foldRecord_cons]
      exact ih hnd.2 hw hpw

theorem foldRecord_hit_failure {conn : String → Option String} {w f : String} :
    ∀ {l : List (String × String)} {st : BState} {res : List (String × String × String)},
      (l.map Prod.fst).Nodup → (w, f) ∈ l → process_word conn w = none →
      w ∈ (foldRecord conn l st res).1.problematic ∧
      dget (foldRecord conn l st res).1.translations w = dget st.translations w ∧
      dget (foldRecord conn l st res).2 w = dget res w := by
  intro l
  induction l with
  | nil => intro st res _ hw; simp at hw
  | cons p rest ih =>
    intro st res hnd hw hpw
    rw [List.map_cons, List.nodup_cons] at hnd
    rcases List.mem_cons.mp hw with rfl | hw
    · have hfresh : w ∉ rest.map Prod.fst := hnd.1
      rw [foldRecord_cons]
      rcases foldRecord_freeze hfresh with ⟨h1, h2, h3⟩
      simp only [hpw] at h1 h2 h3 ⊢
      refine ⟨h2.mpr record_failure.1, ?_, ?_⟩
      · rw [h1, record_failure.2.1]
      · rw [h3, record_failure.2.2]
    · have hne : w ≠ p.1 := by
        intro h
        exact hnd.1 (h ▸ List.mem_map.mpr ⟨(w, f), hw, rfl⟩)
      rw [foldRecord_cons]
      rcases ih hnd.2 hw hpw with ⟨h1, h2, h3⟩
      exact ⟨h1, h2.trans (record_translations_ne hne),
        h3.trans (record_results_ne hne)⟩

theorem foldRecord_wf {conn : String → Option String} {l : List (String × String)} :
    ∀ {st : BState} {res : List (String × String × String)},
      Wf st → Wf (foldRecord conn l st res).1 := by
  induction l with
  | nil => intro st res h; simpa [foldRecord_nil] using h
  | cons p rest ih =>
    intro st res h
    rw [foldRecord_cons]
    exact ih (record_wf h)

theorem foldRecord_inv {conn : String → Option String} {l : List (String × String)} :
    ∀ {st : BState} {res : List (String × String × String)},
      Inv st → (l.map Prod.fst).Nodup →
      (∀ p ∈ l, p.1 ∉ dkeys st.translations) →
      Inv (foldRecord conn l st res).1 := by
  induction l with
  | nil => intro st res h _ _; simpa [foldRecord_nil] using h
  | cons p rest ih =>
    intro st res h hnd hfresh
    rw [List.map_cons, List.nodup_cons] at hnd
    rw [foldRecord_cons]
    refine ih (record_inv h (hfresh p (List.mem_cons_self p rest))) hnd.2 ?_
    intro q hq hmem
    rcases record_translations_keys hmem with hmem | hqp
    · exact hfresh q (List.mem_cons_of_mem _ hq) hmem
    · exact hnd.1 (hqp ▸ List.mem_map.mpr ⟨q, hq, rfl⟩)

end GT

namespace GT

theorem dispatches_append {t1 t2 : List Ev} :
    dispatches (t1 ++ t2) = dispatches t1 ++ dispatches t2 := by
  simp [dispatches]

theorem dispatches_map_dispatch {l : List (String × String)} :
    dispatches (l.map (fun p => Ev.dispatch p.1)) = l.map Prod.fst := by
  induction l with
  | nil => rfl
  | cons p rest ih => simpa [dispatches, List.filterMap_cons] using ih

theorem dispatches_checkpoint_cons {st : BState} {n : ℕ} {tr : List Ev} :
    dispatches (Ev.checkpoint st n :: tr) = dispatches tr := by
  simp [dispatches]

theorem checkpoints_append {t1 t2 : List Ev} :
    checkpoints (t1 ++ t2) = checkpoints t1 ++ checkpoints t2 := by
  simp [checkpoints]

theorem checkpoints_map_dispatch {l : List (String × String)} :
    checkpoints (l.map (fun p => Ev.dispatch p.1)) = [] := by
  induction l with
  | nil => rfl
  | cons p rest ih => simpa [checkpoints] using ih

theorem sinkEvents_append {t1 t2 : List Ev} :
    sinkEvents (t1 ++ t2) = sinkEvents t1 ++ sinkEvents t2 := by
  simp [sinkEvents]

theorem runBatch_eq {conn : String → Option String} {st : BState}
    {res : List (String × String × String)} {b : List (String × String)} :
    runBatch conn st res b = foldRecord conn (toDispatch st b) st res := rfl

theorem mem_toDispatch {st : BState} {b : List (String × String)} {p : String × String} :
    p ∈ toDispatch st b ↔ p ∈ b ∧ p.1 ∉ st.processed := by
  simp [toDispatch, List.mem_filter]

theorem toDispatch_keys_not_processed {st : BState} {b : List (String × String)}
    {x : String} (h : x ∈ (toDispatch st b).map Prod.fst) : x ∉ st.processed := by
  rcases List.mem_map.mp h with ⟨p, hp, rfl⟩
  exact (mem_toDispatch.mp hp).2

theorem runBatches_nil {conn : String → Option String} {st : BState}
    {res : List (String × String × String)} :
    runBatches conn [] st res = ⟨st, res, []⟩ := rfl

theorem runBatches_cons {conn : String → Option String} {b : List (String × String)}
    {bs : List (List (String × String))} {st : BState}
    {res : List (String × String × String)} :
    runBatches conn (b :: bs) st res =
      ⟨(runBatches conn bs (runBatch conn st res b).1 (runBatch conn st res b).2).st,
        (runBatches conn bs (runBatch conn st res b).1 (runBatch conn st res b).2).results,
        (toDispatch st b).map (fun p => Ev.dispatch p.1) ++
          Ev.checkpoint (runBatch conn st res b).1 (runBatch conn st res b).2.length ::
            (runBatches conn bs (runBatch conn st res b).1
              (runBatch conn st res b).2).trace⟩ := rfl

theorem runBatches_processed_mono {conn : String → Option String}
    {bs : List (List (String × String))} {x : String} :
    ∀ {st : BState} {res : List (String × String × String)},
      x ∈ st.processed → x ∈ (runBatches conn bs st res).st.processed := by
  induction bs with
  | nil => intro st res h; exact h
  | cons b rest ih =>
    intro st res h
    rw [runBatches_cons]
    exact ih (runBatch_eq ▸ foldRecord_processed_mono h)

theorem runBatches_dispatch_not_processed {conn : String → Option String}
    {bs : List (List (String × String))} {x : String} :
    ∀ {st : BState} {res : List (String × String × String)},
      x ∈ dispatches (runBatches conn bs st res).trace → x ∉ st.processed := by
  induction bs with
  | nil => intro st res h; simp [runBatches_nil, dispatches] at h
  | cons b rest ih =>
    intro st res h
    rw [runBatches_cons] at h
    simp only at h
    rw [dispatches_append, dispatches_map_dispatch, dispatches_checkpoint_cons] at h
    rcases List.mem_append.mp h with h | h
    · exact toDispatch_keys_not_processed h
    · intro hmem
      exact ih h (runBatch_eq ▸ foldRecord_processed_mono hmem)

theorem runBatches_dispatches_sublist {conn : String → Option String}
    {bs : List (List (String × String))} :
    ∀ {st : BState} {res : List (String × String × String)},
      (dispatches (runBatches conn bs st res).trace).Sublist
        ((bs.flatten).map Prod.fst) := by
  induction bs with
  | nil => intro st res; simp [runBatches_nil, dispatches]
  | cons b rest ih =>
    intro st res
    rw [runBatches_cons]
    simp only
    rw [dispatches_append, dispatches_map_dispatch, dispatches_checkpoint_cons,
      List.flatten_cons, List.map_append]
    exact List.Sublist.append (List.Sublist.map _ (List.filter_sublist b)) ih

theorem runBatches_dispatched_processed {conn : String → Option String}
    {bs : List (List (String × String))} {x : String} :
    ∀ {st : BState} {res : List (String × String × String)},
      x ∈ dispatches (runBatches conn bs st res).trace →
      x ∈ (runBatches conn bs st res).st.processed := by
  induction bs with
  | nil => intro st res h; simp [runBatches_nil, dispatches] at h
  | cons b rest ih =>
    intro st res h
    rw [runBatches_cons] at h ⊢
    simp only at h ⊢
    rw [dispatches_append, dispatches_map_dispatch, dispatches_checkpoint_cons] at h
    rcases List.mem_append.mp h with h | h
    · refine runBatches_processed_mono (runBatch_eq ▸ ?_)
      exact foldRecord_processed_iff.mpr (Or.inr h)
    · exact ih h

theorem runBatches_freeze {conn : String → Option String}
    {bs : List (List (String × String))} {x : String} :
    ∀ {st : BState} {res : List (String × String × String)},
      x ∈ st.processed →
      dget (runBatches conn bs st res).st.translations x = dget st.translations x ∧
      ((x ∈ (runBatches conn bs st res).st.problematic) ↔ x ∈ st.problematic) ∧
      dget (runBatches conn bs st res).results x = dget res x := by
  induction bs with
  | nil => intro st res h; simp [runBatches_nil]
  | cons b rest ih =>
    intro st res h
    have hx : x ∉ (toDispatch st b).map Prod.fst := by
      intro hmem
      exact toDispatch_keys_not_processed hmem h
    rw [runBatches_cons]
    simp only
    rcases runBatch_eq ▸ foldRecord_freeze hx with ⟨h1, h2, h3⟩
    have hp : x ∈ (runBatch conn st res b).1.processed :=
      runBatch_eq ▸ foldRecord_processed_mono h
    rcases ih hp with ⟨ih1, ih2, ih3⟩
    exact ⟨ih1.trans h1, ih2.trans h2, ih3.trans h3⟩

end GT

namespace GT

theorem runBatches_hit_success {conn : String → Option String} {w f t : String}
    {bs : List (List (String × String))} :
    ∀ {st : BState} {res : List (String × String × String)},
      ((bs.flatten).map Prod.fst).Nodup → (w, f) ∈ bs.flatten → w ∉ st.processed →
      process_word conn w = some t →
      dget (runBatches conn bs st res).st.translations w = some t ∧
      w ∉ (runBatches conn bs st res).st.problematic ∧
      dget (runBatches conn bs st res).results w = some (t, f) ∧
      w ∈ (runBatches conn bs st res).st.processed := by
  induction bs with
  | nil => intro st res _ hw; simp at hw
  | cons b rest ih =>
    intro st res hnd hw hproc hpw
    rw [List.flatten_cons, List.map_append, List.nodup_append] at hnd
    rcases hnd with ⟨hnd1, hnd2, hdisj⟩
    rw [runBatches_cons]
    simp only
    rcases List.mem_append.mp hw with hw | hw
    · have hmem : (w, f) ∈ toDispatch st b := mem_toDispatch.mpr ⟨hw, hproc⟩
      have htodoNd : ((toDispatch st b).map Prod.fst).Nodup :=
        (List.Sublist.map Prod.fst (List.filter_sublist b)).nodup hnd1
      rcases runBatch_eq ▸ foldRecord_hit_success htodoNd hmem hpw with ⟨h1, h2, h3⟩
      have hp : w ∈ (runBatch conn st res b).1.processed := by
        rw [runBatch_eq]
        exact foldRecord_processed_iff.mpr
          (Or.inr (List.mem_map.mpr ⟨(w, f), hmem, rfl⟩))
      rcases runBatches_freeze hp with ⟨f1, f2, f3⟩
      exact ⟨f1.trans h1, fun hc => h2 (f2.mp hc), f3.trans h3,
        runBatches_processed_mono hp⟩
    · have hwk : w ∈ ((rest.flatten).map Prod.fst) :=
        List.mem_map.mpr ⟨(w, f), hw, rfl⟩
      have hnb : w ∉ b.map Prod.fst := fun hmem => hdisj hmem hwk
      have hnd3 : w ∉ (toDispatch st b).map Prod.fst := fun hmem =>
        hnb (List.Sublist.mem hmem (List.Sublist.map Prod.fst (List.filter_sublist b)))
      have hp2 : w ∉ (runBatch conn st res b).1.processed := by
        rw [runBatch_eq]
        intro hc
        rcases foldRecord_processed_iff.mp hc with hc | hc
        · exact hproc hc
        · exact hnd3 hc
      exact ih hnd2 hw hp2 hpw

theorem runBatches_hit_failure {conn : String → Option String} {w f : String}
    {bs : List (List (String × String))} :
    ∀ {st : BState} {res : List (String × String × String)},
      ((bs.flatten).map Prod.fst).Nodup → (w, f) ∈ bs.flatten → w ∉ st.processed →
      process_word conn w = none →
      w ∈ (runBatches conn bs st res).st.problematic ∧
      dget (runBatches conn bs st res).st.translations w = dget st.translations w ∧
      dget (runBatches conn bs st res).results w = dget res w ∧
      w ∈ (runBatches conn bs st res).st.processed := by
  induction bs with
  | nil => intro st res _ hw; simp at hw
  | cons b rest ih =>
    intro st res hnd hw hproc hpw
    rw [List.flatten_cons, List.map_append, List.nodup_append] at hnd
    rcases hnd with ⟨hnd1, hnd2, hdisj⟩
    rw [runBatches_cons]
    simp only
    rcases List.mem_append.mp hw with hw | hw
    · have hmem : (w, f) ∈ toDispatch st b := mem_toDispatch.mpr ⟨hw, hproc⟩
      have htodoNd : ((toDispatch st b).map Prod.fst).Nodup :=
        (List.Sublist.map Prod.fst (List.filter_sublist b)).nodup hnd1
      rcases runBatch_eq ▸ foldRecord_hit_failure htodoNd hmem hpw with ⟨h1, h2, h3⟩
      have hp : w ∈ (runBatch conn st res b).1.processed := by
        rw [runBatch_eq]
        exact foldRecord_processed_iff.mpr
          (Or.inr (List.mem_map.mpr ⟨(w, f), hmem, rfl⟩))
      rcases runBatches_freeze hp with ⟨f1, f2, f3⟩
      exact ⟨f2.mpr h1, f1.trans h2, f3.trans h3, runBatches_processed_mono hp⟩
    · have hwk : w ∈ ((rest.flatten).map Prod.fst) :=
        List.mem_map.mpr ⟨(w, f), hw, rfl⟩
      have hnb : w ∉ b.map Prod.fst := fun hmem => hdisj hmem hwk
      have hnd3 : w ∉ (toDispatch st b).map Prod.fst := fun hmem =>
        hnb (List.Sublist.mem hmem (List.Sublist.map Prod.fst (List.filter_sublist b)))
      have hp2 : w ∉ (runBatch conn st res b).1.processed := by
        rw [runBatch_eq]
        intro hc
        rcases foldRecord_processed_iff.mp hc with hc | hc
        · exact hproc hc
        · exact hnd3 hc
      rcases ih hnd2 hw hp2 hpw with ⟨i1, i2, i3, i4⟩
      rcases runBatch_eq ▸ foldRecord_freeze hnd3 with ⟨f1, f2, f3⟩
      exact ⟨i1, i2.trans f1, i3.trans f3, i4⟩

theorem runBatches_wf {conn : String → Option String}
    {bs : List (List (String × String))} :
    ∀ {st : BState} {res : List (String × String × String)},
      Wf st → Wf (runBatches conn bs st res).st := by
  induction bs with
  | nil => intro st res h; exact h
  | cons b rest ih =>
    intro st res h
    rw [runBatches_cons]
    exact ih (runBatch_eq ▸ foldRecord_wf h)

theorem runBatches_inv {conn : String → Option String}
    {bs : List (List (String × String))} :
    ∀ {st : BState} {res : List (String × String × String)},
      Inv st → ((bs.flatten).map Prod.fst).Nodup →
      (∀ c ∈ checkpoints (runBatches conn bs st res).trace, Inv c) ∧
      Inv (runBatches conn bs st res).st := by
  induction bs with
  | nil =>
    intro st res h _
    exact ⟨by simp [runBatches_nil, checkpoints], h⟩
  | cons b rest ih =>
    intro st res h hnd
    rw [List.flatten_cons, List.map_append, List.nodup_append] at hnd
    rcases hnd with ⟨hnd1, hnd2, _⟩
    have htodoNd : ((toDispatch st b).map Prod.fst).Nodup :=
      (List.Sublist.map Prod.fst (List.filter_sublist b)).nodup hnd1
    have hfresh : ∀ p ∈ toDispatch st b, p.1 ∉ dkeys st.translations := by
      intro p hp hmem
      exact (mem_toDispatch.mp hp).2 (h.1 p.1 hmem)
    have hstep : Inv (runBatch conn st res b).1 :=
      runBatch_eq ▸ foldRecord_inv h htodoNd hfresh
    rcases ih hstep hnd2 with ⟨ih1, ih2⟩
    rw [runBatches_cons]
    simp only
    refine ⟨?_, ih2⟩
    intro c hc
    rw [checkpoints_append, checkpoints_map_dispatch, List.nil_append] at hc
    have hcons : checkpoints (Ev.checkpoint (runBatch conn st res b).1
        (runBatch conn st res b).2.length ::
        (runBatches conn rest (runBatch conn st res b).1
          (runBatch conn st res b).2).trace) =
        (runBatch conn st res b).1 :: checkpoints (runBatches conn rest
          (runBatch conn st res b).1 (runBatch conn st res b).2).trace := by
      simp [checkpoints, List.filterMap_cons]
    rw [hcons] at hc
    rcases List.mem_cons.mp hc with rfl | hc
    · exact hstep
    · exact ih1 c hc

theorem runBatches_checkpoint_count {conn : String → Option String}
    {bs : List (List (String × String))} :
    ∀ {st : BState} {res : List (String × String × String)},
      (checkpoints (runBatches conn bs st res).trace).length = bs.length := by
  induction bs with
  | nil => intro st res; simp [runBatches_nil, checkpoints]
  | cons b rest ih =>
    intro st res
    rw [runBatches_cons]
    simp only
    rw [checkpoints_append, checkpoints_map_dispatch]
    simpa [checkpoints, List.filterMap_cons] using ih

theorem runBatches_append {conn : String → Option String}
    {l1 l2 : List (List (String × String))} :
    ∀ {st : BState} {res : List (String × String × String)},
      runBatches conn (l1 ++ l2) st res =
        ⟨(runBatches conn l2 (runBatches conn l1 st res).st
            (runBatches conn l1 st res).results).st,
          (runBatches conn l2 (runBatches conn l1 st res).st
            (runBatches conn l1 st res).results).results,
          (runBatches conn l1 st res).trace ++
            (runBatches conn l2 (runBatches conn l1 st res).st
              (runBatches conn l1 st res).results).trace⟩ := by
  induction l1 with
  | nil => intro st res; simp [runBatches_nil]
  | cons b rest ih =>
    intro st res
    rw [List.cons_append, runBatches_cons, runBatches_cons, ih]
    simp

end GT

/-! ### Lemmas about batch partitioning and word-list loading -/

theorem chunksGo_eq {α : Type} {bs : ℕ} (hbs : bs ≠ 0) :
    ∀ (t acc : List α) (k : ℕ),
      chunksGo bs t acc k = (acc.reverse ++ t.take k) :: chunks bs (t.drop k) := by
  intro t
  induction t with
  | nil =>
    intro acc k
    simp [chunksGo, chunks]
  | cons a t2 ih =>
    intro acc k
    match k with
    | 0 =>
      rw [chunksGo]
      show acc.reverse :: chunksGo bs t2 [a] (bs - 1) = _
      rw [List.take_zero, List.drop_zero, List.append_nil, chunks]
      simp only [hbs, if_false]
    | k2 + 1 =>
      rw [chunksGo]
      show chunksGo bs t2 (a :: acc) k2 = _
      rw [ih (a :: acc) k2]
      simp [List.take_succ_cons, List.drop_succ_cons, List.reverse_cons]

theorem chunks_eq {α : Type} {bs : ℕ} (hbs : bs ≠ 0) (a : α) (t : List α) :
    chunks bs (a :: t) = (a :: t).take bs :: chunks bs ((a :: t).drop bs) := by
  rcases Nat.exists_eq_succ_of_ne_zero hbs with ⟨m, rfl⟩
  rw [chunks]
  simp only [Nat.succ_ne_zero, if_false]
  rw [chunksGo_eq (Nat.succ_ne_zero m) t [a] (m + 1 - 1)]
  simp [List.take_succ_cons, List.drop_succ_cons]

theorem chunks_flatten {α : Type} (bs : ℕ) (l : List α) : (chunks bs l).flatten = l := by
  match l with
  | [] => rfl
  | a :: l2 =>
    by_cases h2 : bs = 0
    · simp [chunks, h2]
    · rw [chunks_eq h2 a l2, List.flatten_cons,
        chunks_flatten bs ((a :: l2).drop bs), List.take_append_drop]
termination_by l.length
decreasing_by
  simp [List.length_drop]
  have : bs ≠ 0 := h2
  omega

theorem dedupFirst_nodup_notin :
    ∀ (l : List (String × String)) (seen : List String),
      ((dedupFirst l seen).map Prod.fst).Nodup ∧
      ∀ x ∈ (dedupFirst l seen).map Prod.fst, x ∉ seen := by
  intro l
  induction l with
  | nil => intro seen; simp [dedupFirst]
  | cons p rest ih =>
    intro seen
    rcases p with ⟨w, f⟩
    by_cases hc : seen.contains w
    · rw [dedupFirst, if_pos hc]
      exact ih seen
    · rw [dedupFirst, if_neg hc]
      rcases ih (w :: seen) with ⟨ih1, ih2⟩
      constructor
      · rw [List.map_cons, List.nodup_cons]
        refine ⟨?_, ih1⟩
        intro hmem
        exact ih2 w hmem (List.mem_cons_self w seen)
      · intro x hx
        rw [List.map_cons] at hx
        rcases List.mem_cons.mp hx with rfl | hx
        · exact fun hmem => hc (contains_iff.mpr hmem)
        · intro hmem
          exact ih2 x hx (List.mem_cons_of_mem _ hmem)

theorem dedupFirst_sublist :
    ∀ (l : List (String × String)) (seen : List String), (dedupFirst l seen).Sublist l := by
  intro l
  induction l with
  | nil => intro seen; simp [dedupFirst]
  | cons p rest ih =>
    intro seen
    rcases p with ⟨w, f⟩
    by_cases hc : seen.contains w
    · rw [dedupFirst, if_pos hc]
      exact List.Sublist.cons _ (ih seen)
    · rw [dedupFirst, if_neg hc]
      exact List.Sublist.cons₂ _ (ih (w :: seen))

theorem dedupFirst_find :
    ∀ (l : List (String × String)) (seen : List String) (p : String × String),
      p ∈ dedupFirst l seen → l.find? (fun q => q.1 == p.1) = some p := by
  intro l
  induction l with
  | nil => intro seen p h; simp [dedupFirst] at h
  | cons q rest ih =>
    intro seen p h
    rcases q with ⟨w, f⟩
    by_cases hc : seen.contains w
    · rw [dedupFirst, if_pos hc] at h
      have hp : p.1 ∉ seen := (dedupFirst_nodup_notin rest seen).2 p.1
        (List.mem_map.mpr ⟨p, h, rfl⟩)
      have hne : w ≠ p.1 := by
        intro heq
        exact hp (heq ▸ contains_iff.mp hc)
      rw [List.find?_cons_of_neg _ (by simpa using hne)]
      exact ih seen p h
    · rw [dedupFirst, if_neg hc] at h
      rcases List.mem_cons.mp h with rfl | h
      · exact List.find?_cons_of_pos _ (by simp)
      · have hp : p.1 ∉ w :: seen := (dedupFirst_nodup_notin rest (w :: seen)).2 p.1
          (List.mem_map.mpr ⟨p, h, rfl⟩)
        have hne : w ≠ p.1 := by
          intro heq
          exact hp (heq ▸ List.mem_cons_self w seen)
        rw [List.find?_cons_of_neg _ (by simpa using hne)]
        exact ih (w :: seen) p h

theorem dedupFirst_covers :
    ∀ (l : List (String × String)) (seen : List String) (x : String),
      x ∈ l.map Prod.fst → x ∉ seen → x ∈ (dedupFirst l seen).map Prod.fst := by
  intro l
  induction l with
  | nil => intro seen x h; simp at h
  | cons q rest ih =>
    intro seen x hx hseen
    rcases q with ⟨w, f⟩
    rw [List.map_cons] at hx
    by_cases hc : seen.contains w
    · rw [dedupFirst, if_pos hc]
      rcases List.mem_cons.mp hx with rfl | hx
      · exact absurd (contains_iff.mp hc) hseen
      · exact ih seen x hx hseen
    · rw [dedupFirst, if_neg hc]
      rcases List.mem_cons.mp hx with rfl | hx
      · simp
      · by_cases hxw : x = w
        · simp [hxw]
        · rw [List.map_cons]
          refine List.mem_cons_of_mem _ (ih (w :: seen) x hx ?_)
          intro hmem
          rcases List.mem_cons.mp hmem with rfl | hmem
          · exact hxw rfl
          · exact hseen hmem

theorem load_word_list_keys_nodup (lines : List String) :
    ((load_word_list lines).map Prod.fst).Nodup :=
  (dedupFirst_nodup_notin (lines.filterMap parseLine) []).1

/-! ### Lemmas about the google `main` -/

namespace GT

theorem dispatches_report_sink {ws : List String} {es : List (String × String × String)} :
    dispatches [Ev.report ws, Ev.sink es] = [] := rfl

theorem mainRun_dispatches {conn : String → Option String} {s0 : BState}
    {lines : List String} :
    dispatches (mainRun conn s0 lines).trace =
      if (words_to_process s0 (load_word_list lines)).isEmpty then []
      else dispatches
        (process_words conn 100 (words_to_process s0 (load_word_list lines)) s0).trace := by
  by_cases h : (words_to_process s0 (load_word_list lines)).isEmpty
  · rw [if_pos h]
    show dispatches ((mainRun conn s0 lines).trace) = []
    rw [mainRun]
    simp only [h, if_pos]
    rw [List.nil_append]
    exact dispatches_report_sink
  · rw [if_neg h]
    show dispatches ((mainRun conn s0 lines).trace) = _
    rw [mainRun]
    simp only [h, if_neg, Bool.false_eq_true, not_false_iff]
    rw [dispatches_append, dispatches_report_sink, List.append_nil]

theorem mainRun_st {conn : String → Option String} {s0 : BState} {lines : List String} :
    (mainRun conn s0 lines).st =
      if (words_to_process s0 (load_word_list lines)).isEmpty then s0
      else (process_words conn 100 (words_to_process s0 (load_word_list lines)) s0).st := by
  by_cases h : (words_to_process s0 (load_word_list lines)).isEmpty
  · rw [if_pos h, mainRun]
    simp [h]
  · rw [if_neg h, mainRun]
    simp [h]

theorem problematic_to_retry_keys_sublist {s0 : BState} {wtf : List (String × String)} :
    ((problematic_to_retry s0 wtf).map Prod.fst).Sublist s0.problematic := by
  rw [problematic_to_retry]
  induction s0.problematic with
  | nil => simp
  | cons a rest ih =>
    rw [List.filterMap_cons]
    rcases h : dget wtf a with _ | f
    · exact List.Sublist.cons a ih
    · exact List.Sublist.cons₂ a ih

theorem words_to_process_keys_nodup {s0 : BState} {lines : List String}
    (h : s0.problematic.Nodup) :
    ((words_to_process s0 (load_word_list lines)).map Prod.fst).Nodup := by
  rw [words_to_process, List.map_append, List.nodup_append]
  refine ⟨problematic_to_retry_keys_sublist.nodup h, ?_, ?_⟩
  · exact (List.Sublist.map Prod.fst (List.filter_sublist _)).nodup
      (load_word_list_keys_nodup lines)
  · intro x hx hx2
    have hxp : x ∈ s0.problematic := problematic_to_retry_keys_sublist.mem hx
    rcases List.mem_map.mp hx2 with ⟨p, hp, rfl⟩
    rcases List.mem_filter.mp hp with ⟨_, hcond⟩
    simp only [Bool.and_eq_true, Bool.not_eq_true'] at hcond
    have : p.1 ∉ s0.problematic := by
      intro hmem
      rw [contains_iff.mpr hmem] at hcond
      exact Bool.noConfusion hcond.2
    exact this hxp

theorem mainRun_dispatches_nodup {conn : String → Option String} {s0 : BState}
    {lines : List String} (h : s0.problematic.Nodup) :
    (dispatches (mainRun conn s0 lines).trace).Nodup := by
  rw [mainRun_dispatches]
  by_cases hw : (words_to_process s0 (load_word_list lines)).isEmpty
  · simp [hw]
  · rw [if_neg hw]
    have hsub := @runBatches_dispatches_sublist conn
      (chunks 100 (words_to_process s0 (load_word_list lines))) s0 []
    rw [chunks_flatten] at hsub
    exact hsub.nodup (words_to_process_keys_nodup h)

theorem mainRun_dispatch_not_processed {conn : String → Option String} {s0 : BState}
    {lines : List String} {x : String}
    (h : x ∈ dispatches (mainRun conn s0 lines).trace) : x ∉ s0.processed := by
  rw [mainRun_dispatches] at h
  by_cases hw : (words_to_process s0 (load_word_list lines)).isEmpty
  · rw [if_pos hw] at h
    simp at h
  · rw [if_neg hw] at h
    exact runBatches_dispatch_not_processed h

theorem mainRun_dispatched_processed {conn : String → Option String} {s0 : BState}
    {lines : List String} {x : String}
    (h : x ∈ dispatches (mainRun conn s0 lines).trace) :
    x ∈ (mainRun conn s0 lines).st.processed := by
  rw [mainRun_dispatches] at h
  rw [mainRun_st]
  by_cases hw : (words_to_process s0 (load_word_list lines)).isEmpty
  · rw [if_pos hw] at h
    simp at h
  · rw [if_neg hw] at h
    rw [if_neg hw]
    exact runBatches_dispatched_processed h

theorem mainRun_wf {conn : String → Option String} {s0 : BState} {lines : List String}
    (h : Wf s0) : Wf (mainRun conn s0 lines).st := by
  rw [mainRun_st]
  by_cases hw : (words_to_process s0 (load_word_list lines)).isEmpty
  · rwa [if_pos hw]
  · rw [if_neg hw]
    exact runBatches_wf h

end GT

/-! ### Lemmas about the glosbe builder -/

namespace Glos

theorem gl_record_processed_iff {st : BState}
    {res : List (String × String × String × List String)} {w f x : String}
    {o : Option String × List String} :
    x ∈ (record st res w f o).1.processed ↔ x ∈ st.processed ∨ x = w := by
  rcases o with ⟨t?, exs⟩
  cases t? <;> simp [record, mem_sadd]

theorem gl_record_translations_ne {st : BState}
    {res : List (String × String × String × List String)} {w f x : String}
    {o : Option String × List String} (h : x ≠ w) :
    dget (record st res w f o).1.translations x = dget st.translations x := by
  rcases o with ⟨t?, exs⟩
  cases t? <;> simp [record, dget_dinsert_ne h]

theorem gl_record_problematic_ne {st : BState}
    {res : List (String × String × String × List String)} {w f x : String}
    {o : Option String × List String} (h : x ≠ w) :
    (x ∈ (record st res w f o).1.problematic ↔ x ∈ st.problematic) := by
  rcases o with ⟨t?, exs⟩
  cases t? with
  | none => simp [record, mem_sadd, h]
  | some t => simp [record]

theorem gl_record_results_ne {st : BState}
    {res : List (String × String × String × List String)} {w f x : String}
    {o : Option String × List String} (h : x ≠ w) :
    dget (record st res w f o).2 x = dget res x := by
  rcases o with ⟨t?, exs⟩
  cases t? <;> simp [record, dget_dinsert_ne h]

theorem gl_record_success {st : BState}
    {res : List (String × String × String × List String)} {w f t : String}
    {exs : List String} :
    dget (record st res w f (some t, exs)).1.translations w = some t ∧
    dget (record st res w f (some t, exs)).1.examples w = some exs ∧
    dget (record st res w f (some t, exs)).2 w = some (t, f, exs) ∧
    (record st res w f (some t, exs)).1.problematic = st.problematic := by
  exact ⟨by simp [record, dget_dinsert_self], by simp [record, dget_dinsert_self],
    by simp [record, dget_dinsert_self], rfl⟩

theorem gl_record_failure {st : BState}
    {res : List (String × String × String × List String)} {w f : String}
    {exs : List String} :
    w ∈ (record st res w f (none, exs)).1.problematic ∧
    (record st res w f (none, exs)).1.translations = st.translations ∧
    (record st res w f (none, exs)).2 = res := by
  refine ⟨?_, rfl, rfl⟩
  simp [record, mem_sadd]

theorem record_problematic_sub {st : BState}
    {res : List (String × String × String × List String)} {w f x : String}
    {o : Option String × List String}
    (h : x ∈ (record st res w f o).1.problematic) : x ∈ st.problematic ∨ x = w := by
  rcases o with ⟨t?, exs⟩
  cases t? with
  | none => simpa [record, mem_sadd] using h
  | some t => exact Or.inl (by simpa [record] using h)

theorem gl_record_translations_keys {st : BState}
    {res : List (String × String × String × List String)} {w f x : String}
    {o : Option String × List String} :
    x ∈ dkeys (record st res w f o).1.translations →
      x ∈ dkeys st.translations ∨ x = w := by
  rcases o with ⟨t?, exs⟩
  cases t? with
  | none => exact fun h => Or.inl h
  | some t =>
    intro h
    exact mem_dkeys_dinsert.mp h

theorem gl_record_wf {st : BState}
    {res : List (String × String × String × List String)} {w f : String}
    {o : Option String × List String} (h : Wf st) : Wf (record st res w f o).1 := by
  rcases h with ⟨h1, h2, h3⟩
  rcases o with ⟨t?, exs⟩
  cases t? with
  | none => exact ⟨sadd_nodup h1, sadd_nodup h2, h3⟩
  | some t => exact ⟨sadd_nodup h1, h2, dkeys_dinsert_nodup h3⟩

theorem record_invAuto {st : BState}
    {res : List (String × String × String × List String)} {w f : String}
    {o : Option String × List String} (h : InvAuto st)
    (hw1 : w ∉ dkeys st.translations) (hw2 : w ∉ st.problematic) :
    InvAuto (record st res w f o).1 := by
  rcases h with ⟨⟨h1, h2⟩, h3⟩
  rcases o with ⟨t?, exs⟩
  cases t? with
  | none =>
    refine ⟨⟨?_, ?_⟩, ?_⟩
    · intro x hx
      exact mem_sadd.mpr (Or.inl (h1 x hx))
    · intro x hx
      rcases mem_sadd.mp (by simpa [record] using hx) with hx | rfl
      · exact h2 x hx
      · exact hw1
    · intro x hx
      rcases mem_sadd.mp (by simpa [record] using hx) with hx | rfl
      · exact mem_sadd.mpr (Or.inl (h3 x hx))
      · exact mem_sadd.mpr (Or.inr rfl)
  | some t =>
    refine ⟨⟨?_, ?_⟩, ?_⟩
    · intro x hx
      rcases mem_dkeys_dinsert.mp (by simpa [record] using hx) with hx | rfl
      · exact mem_sadd.mpr (Or.inl (h1 x hx))
      · exact mem_sadd.mpr (Or.inr rfl)
    · intro x hx
      have hx2 : x ∈ st.problematic := by simpa [record] using hx
      intro hmem
      rcases mem_dkeys_dinsert.mp (by simpa [record] using hmem) with hmem | rfl
      · exact h2 x hx2 hmem
      · exact hw2 hx2
    · intro x hx
      have hx2 : x ∈ st.problematic := by simpa [record] using hx
      exact mem_sadd.mpr (Or.inl (h3 x hx2))

theorem gl_foldRecord_nil {conn : String → Option String × List String} {st : BState}
    {res : List (String × String × String × List String)} :
    foldRecord conn [] st res = (st, res) := rfl

theorem gl_foldRecord_cons {conn : String → Option String × List String}
    {p : String × String} {l : List (String × String)} {st : BState}
    {res : List (String × String × String × List String)} :
    foldRecord conn (p :: l) st res =
      foldRecord conn l (record st res p.1 p.2 (process_word conn p.1)).1
        (record st res p.1 p.2 (process_word conn p.1)).2 := by
  simp [foldRecord]

theorem gl_foldRecord_processed_mono {conn : String → Option String × List String}
    {l : List (String × String)} {x : String} :
    ∀ {st : BState} {res : List (String × String × String × List String)},
      x ∈ st.processed → x ∈ (foldRecord conn l st res).1.processed := by
  induction l with
  | nil => intro st res h; exact h
  | cons p rest ih =>
    intro st res h
    rw [gl_foldRecord_cons]
    exact ih (gl_record_processed_iff.mpr (Or.inl h))

theorem gl_foldRecord_processed_iff {conn : String → Option String × List String}
    {l : List (String × String)} {x : String} :
    ∀ {st : BState} {res : List (String × String × String × List String)},
      (x ∈ (foldRecord conn l st res).1.processed ↔
        x ∈ st.processed ∨ x ∈ l.map Prod.fst) := by
  induction l with
  | nil => intro st res; simp [gl_foldRecord_nil]
  | cons p rest ih =>
    intro st res
    rw [gl_foldRecord_cons]
    constructor
    · intro h
      rcases ih.mp h with h | h
      · rcases gl_record_processed_iff.mp h with h | rfl
        · exact Or.inl h
        · exact Or.inr (by simp)
      · exact Or.inr (by simp [h])
    · intro h
      rcases h with h | h
      · exact ih.mpr (Or.inl (gl_record_processed_iff.mpr (Or.inl h)))
      · rw [List.map_cons] at h
        rcases List.mem_cons.mp h with h | h
        · exact ih.mpr (Or.inl (gl_record_processed_iff.mpr (Or.inr h)))
        · exact ih.mpr (Or.inr h)

theorem gl_foldRecord_freeze {conn : String → Option String × List String}
    {l : List (String × String)} {x : String} :
    ∀ {st : BState} {res : List (String × String × String × List String)},
      x ∉ l.map Prod.fst →
      dget (foldRecord conn l st res).1.translations x = dget st.translations x ∧
      ((x ∈ (foldRecord conn l st res).1.problematic) ↔ x ∈ st.problematic) ∧
      dget (foldRecord conn l st res).2 x = dget res x := by
  induction l with
  | nil => intro st res _; simp [gl_foldRecord_nil]
  | cons p rest ih =>
    intro st res hx
    have hne : x ≠ p.1 := by
      intro h
      exact hx (by simp [h])
    have hrest : x ∉ rest.map Prod.fst := by
      intro h
      exact hx (by simp [h])
    rw [gl_foldRecord_cons]
    rcases ih hrest with ⟨ih1, ih2, ih3⟩
    exact ⟨ih1.trans (gl_record_translations_ne hne),
      ih2.trans (gl_record_problematic_ne hne),
      ih3.trans (gl_record_results_ne hne)⟩

end Glos

namespace Glos

theorem gl_foldRecord_hit_success {conn : String → Option String × List String}
    {w f t : String} {exs : List String} :
    ∀ {l : List (String × String)} {st : BState}
      {res : List (String × String × String × List String)},
      (l.map Prod.fst).Nodup → (w, f) ∈ l → process_word conn w = (some t, exs) →
      dget (foldRecord conn l st res).1.translations w = some t ∧
      dget (foldRecord conn l st res).2 w = some (t, f, exs) ∧
      ((w ∈ (foldRecord conn l st res).1.problematic) ↔ w ∈ st.problematic) := by
  intro l
  induction l with
  | nil => intro st res _ hw; simp at hw
  | cons p rest ih =>
    intro st res hnd hw hpw
    rw [List.map_cons, List.nodup_cons] at hnd
    rcases List.mem_cons.mp hw with rfl | hw
    · have hfresh : w ∉ rest.map Prod.fst := hnd.1
      rw [gl_foldRecord_cons]
      rcases gl_foldRecord_freeze hfresh with ⟨h1, h2, h3⟩
      simp only [hpw] at h1 h2 h3 ⊢
      refine ⟨h1.trans gl_record_success.1, h3.trans gl_record_success.2.2.1, ?_⟩
      rw [h2, gl_record_success.2.2.2]
    · have hne : w ≠ p.1 := by
        intro h
        exact hnd.1 (h ▸ List.mem_map.mpr ⟨(w, f), hw, rfl⟩)
      rw [gl_foldRecord_cons]
      rcases ih hnd.2 hw hpw with ⟨h1, h2, h3⟩
      exact ⟨h1, h2, h3.trans (gl_record_problematic_ne hne)⟩

theorem gl_foldRecord_hit_failure {conn : String → Option String × List String}
    {w f : String} {exs : List String} :
    ∀ {l : List (String × String)} {st : BState}
      {res : List (String × String × String × List String)},
      (l.map Prod.fst).Nodup → (w, f) ∈ l → process_word conn w = (none, exs) →
      w ∈ (foldRecord conn l st res).1.problematic ∧
      dget (foldRecord conn l st res).1.translations w = dget st.translations w ∧
      dget (foldRecord conn l st res).2 w = dget res w := by
  intro l
  induction l with
  | nil => intro st res _ hw; simp at hw
  | cons p rest ih =>
    intro st res hnd hw hpw
    rw [List.map_cons, List.nodup_cons] at hnd
    rcases List.mem_cons.mp hw with rfl | hw
    · have hfresh : w ∉ rest.map Prod.fst := hnd.1
      rw [gl_foldRecord_cons]
      rcases gl_foldRecord_freeze hfresh with ⟨h1, h2, h3⟩
      simp only [hpw] at h1 h2 h3 ⊢
      refine ⟨h2.mpr gl_record_failure.1, ?_, ?_⟩
      · rw [h1, gl_record_failure.2.1]
      · rw [h3, gl_record_failure.2.2]
    · have hne : w ≠ p.1 := by
        intro h
        exact hnd.1 (h ▸ List.mem_map.mpr ⟨(w, f), hw, rfl⟩)
      rw [gl_foldRecord_cons]
      rcases ih hnd.2 hw hpw with ⟨h1, h2, h3⟩
      exact ⟨h1, h2.trans (gl_record_translations_ne hne),
        h3.trans (gl_record_results_ne hne)⟩

theorem gl_foldRecord_wf {conn : String → Option String × List String}
    {l : List (String × String)} :
    ∀ {st : BState} {res : List (String × String × String × List String)},
      Wf st → Wf (foldRecord conn l st res).1 := by
  induction l with
  | nil => intro st res h; exact h
  | cons p rest ih =>
    intro st res h
    rw [gl_foldRecord_cons]
    exact ih (gl_record_wf h)

theorem foldRecord_invAuto {conn : String → Option String × List String}
    {l : List (String × String)} :
    ∀ {st : BState} {res : List (String × String × String × List String)},
      InvAuto st → (l.map Prod.fst).Nodup →
      (∀ p ∈ l, p.1 ∉ dkeys st.translations ∧ p.1 ∉ st.problematic) →
      InvAuto (foldRecord conn l st res).1 := by
  induction l with
  | nil => intro st res h _ _; exact h
  | cons p rest ih =>
    intro st res h hnd hfresh
    rw [List.map_cons, List.nodup_cons] at hnd
    rw [gl_foldRecord_cons]
    rcases hfresh p (List.mem_cons_self p rest) with ⟨hf1, hf2⟩
    refine ih (record_invAuto h hf1 hf2) hnd.2 ?_
    intro q hq
    have hqp : q.1 ≠ p.1 := by
      intro h2
      exact hnd.1 (h2 ▸ List.mem_map.mpr ⟨q, hq, rfl⟩)
    constructor
    · intro hmem
      rcases gl_record_translations_keys hmem with hmem | h2
      · exact (hfresh q (List.mem_cons_of_mem _ hq)).1 hmem
      · exact hqp h2
    · intro hmem
      rcases record_problematic_sub hmem with hmem | h2
      · exact (hfresh q (List.mem_cons_of_mem _ hq)).2 hmem
      · exact hqp h2

end Glos

namespace Glos

theorem gl_dispatches_append {t1 t2 : List Ev} :
    dispatches (t1 ++ t2) = dispatches t1 ++ dispatches t2 := by
  simp [dispatches]

theorem gl_dispatches_map_dispatch {l : List (String × String)} :
    dispatches (l.map (fun p => Ev.dispatch p.1)) = l.map Prod.fst := by
  induction l with
  | nil => rfl
  | cons p rest ih => simpa [dispatches, List.filterMap_cons] using ih

theorem gl_dispatches_checkpoint_cons {st : BState} {n : ℕ} {tr : List Ev} :
    dispatches (Ev.checkpoint st n :: tr) = dispatches tr := by
  simp [dispatches]

theorem gl_checkpoints_append {t1 t2 : List Ev} :
    checkpoints (t1 ++ t2) = checkpoints t1 ++ checkpoints t2 := by
  simp [checkpoints]

theorem gl_checkpoints_map_dispatch {l : List (String × String)} :
    checkpoints (l.map (fun p => Ev.dispatch p.1)) = [] := by
  induction l with
  | nil => rfl
  | cons p rest ih => simpa [checkpoints] using ih

theorem gl_runBatch_eq {conn : String → Option String × List String} {st : BState}
    {res : List (String × String × String × List String)} {b : List (String × String)} :
    runBatch conn st res b = foldRecord conn (toDispatch st b) st res := rfl

theorem gl_mem_toDispatch {st : BState} {b : List (String × String)} {p : String × String} :
    p ∈ toDispatch st b ↔ p ∈ b ∧ p.1 ∉ st.processed := by
  simp [toDispatch, List.mem_filter]

theorem gl_toDispatch_keys_not_processed {st : BState} {b : List (String × String)}
    {x : String} (h : x ∈ (toDispatch st b).map Prod.fst) : x ∉ st.processed := by
  rcases List.mem_map.mp h with ⟨p, hp, rfl⟩
  exact (gl_mem_toDispatch.mp hp).2

theorem gl_runBatches_nil {conn : String → Option String × List String} {st : BState}
    {res : List (String × String × String × List String)} :
    runBatches conn [] st res = ⟨st, res, []⟩ := rfl

theorem gl_runBatches_cons {conn : String → Option String × List String}
    {b : List (String × String)} {bs : List (List (String × String))} {st : BState}
    {res : List (String × String × String × List String)} :
    runBatches conn (b :: bs) st res =
      ⟨(runBatches conn bs (runBatch conn st res b).1 (runBatch conn st res b).2).st,
        (runBatches conn bs (runBatch conn st res b).1 (runBatch conn st res b).2).results,
        (toDispatch st b).map (fun p => Ev.dispatch p.1) ++
          Ev.checkpoint (runBatch conn st res b).1 (runBatch conn st res b).2.length ::
            (runBatches conn bs (runBatch conn st res b).1
              (runBatch conn st res b).2).trace⟩ := rfl

theorem gl_runBatches_processed_mono {conn : String → Option String × List String}
    {bs : List (List (String × String))} {x : String} :
    ∀ {st : BState} {res : List (String × String × String × List String)},
      x ∈ st.processed → x ∈ (runBatches conn bs st res).st.processed := by
  induction bs with
  | nil => intro st res h; exact h
  | cons b rest ih =>
    intro st res h
    rw [gl_runBatches_cons]
    exact ih (gl_runBatch_eq ▸ gl_foldRecord_processed_mono h)

theorem gl_runBatches_dispatch_not_processed {conn : String → Option String × List String}
    {bs : List (List (String × String))} {x : String} :
    ∀ {st : BState} {res : List (String × String × String × List String)},
      x ∈ dispatches (runBatches conn bs st res).trace → x ∉ st.processed := by
  induction bs with
  | nil => intro st res h; simp [gl_runBatches_nil, dispatches] at h
  | cons b rest ih =>
    intro st res h
    rw [gl_runBatches_cons] at h
    simp only at h
    rw [gl_dispatches_append, gl_dispatches_map_dispatch, gl_dispatches_checkpoint_cons] at h
    rcases List.mem_append.mp h with h | h
    · exact gl_toDispatch_keys_not_processed h
    · intro hmem
      exact ih h (gl_runBatch_eq ▸ gl_foldRecord_processed_mono hmem)

theorem gl_runBatches_dispatches_sublist {conn : String → Option String × List String}
    {bs : List (List (String × String))} :
    ∀ {st : BState} {res : List (String × String × String × List String)},
      (dispatches (runBatches conn bs st res).trace).Sublist
        ((bs.flatten).map Prod.fst) := by
  induction bs with
  | nil => intro st res; simp [gl_runBatches_nil, dispatches]
  | cons b rest ih =>
    intro st res
    rw [gl_runBatches_cons]
    simp only
    rw [gl_dispatches_append, gl_dispatches_map_dispatch, gl_dispatches_checkpoint_cons,
      List.flatten_cons, List.map_append]
    exact List.Sublist.append (List.Sublist.map _ (List.filter_sublist b)) ih

theorem gl_runBatches_dispatched_processed {conn : String → Option String × List String}
    {bs : List (List (String × String))} {x : String} :
    ∀ {st : BState} {res : List (String × String × String × List String)},
      x ∈ dispatches (runBatches conn bs st res).trace →
      x ∈ (runBatches conn bs st res).st.processed := by
  induction bs with
  | nil => intro st res h; simp [gl_runBatches_nil, dispatches] at h
  | cons b rest ih =>
    intro st res h
    rw [gl_runBatches_cons] at h ⊢
    simp only at h ⊢
    rw [gl_dispatches_append, gl_dispatches_map_dispatch, gl_dispatches_checkpoint_cons] at h
    rcases List.mem_append.mp h with h | h
    · refine gl_runBatches_processed_mono (gl_runBatch_eq ▸ ?_)
      exact gl_foldRecord_processed_iff.mpr (Or.inr h)
    · exact ih h

theorem gl_runBatches_freeze {conn : String → Option String × List String}
    {bs : List (List (String × String))} {x : String} :
    ∀ {st : BState} {res : List (String × String × String × List String)},
      x ∈ st.processed →
      dget (runBatches conn bs st res).st.translations x = dget st.translations x ∧
      ((x ∈ (runBatches conn bs st res).st.problematic) ↔ x ∈ st.problematic) ∧
      dget (runBatches conn bs st res).results x = dget res x := by
  induction bs with
  | nil => intro st res h; simp [gl_runBatches_nil]
  | cons b rest ih =>
    intro st res h
    have hx : x ∉ (toDispatch st b).map Prod.fst := by
      intro hmem
      exact gl_toDispatch_keys_not_processed hmem h
    rw [gl_runBatches_cons]
    simp only
    rcases gl_runBatch_eq ▸ gl_foldRecord_freeze hx with ⟨h1, h2, h3⟩
    have hp : x ∈ (runBatch conn st res b).1.processed :=
      gl_runBatch_eq ▸ gl_foldRecord_processed_mono h
    rcases ih hp with ⟨ih1, ih2, ih3⟩
    exact ⟨ih1.trans h1, ih2.trans h2, ih3.trans h3⟩

end Glos

namespace Glos

theorem gl_runBatches_hit_success {conn : String → Option String × List String}
    {w f t : String} {exs : List String} {bs : List (List (String × String))} :
    ∀ {st : BState} {res : List (String × String × String × List String)},
      ((bs.flatten).map Prod.fst).Nodup → (w, f) ∈ bs.flatten → w ∉ st.processed →
      process_word conn w = (some t, exs) →
      dget (runBatches conn bs st res).st.translations w = some t ∧
      dget (runBatches conn bs st res).results w = some (t, f, exs) ∧
      ((w ∈ (runBatches conn bs st res).st.problematic) ↔ w ∈ st.problematic) ∧
      w ∈ (runBatches conn bs st res).st.processed := by
  induction bs with
  | nil => intro st res _ hw; simp at hw
  | cons b rest ih =>
    intro st res hnd hw hproc hpw
    rw [List.flatten_cons, List.map_append, List.nodup_append] at hnd
    rcases hnd with ⟨hnd1, hnd2, hdisj⟩
    rw [gl_runBatches_cons]
    simp only
    rcases List.mem_append.mp hw with hw | hw
    · have hmem : (w, f) ∈ toDispatch st b := gl_mem_toDispatch.mpr ⟨hw, hproc⟩
      have htodoNd : ((toDispatch st b).map Prod.fst).Nodup :=
        (List.Sublist.map Prod.fst (List.filter_sublist b)).nodup hnd1
      rcases gl_runBatch_eq ▸ gl_foldRecord_hit_success htodoNd hmem hpw with ⟨h1, h2, h3⟩
      have hp : w ∈ (runBatch conn st res b).1.processed := by
        rw [gl_runBatch_eq]
        exact gl_foldRecord_processed_iff.mpr
          (Or.inr (List.mem_map.mpr ⟨(w, f), hmem, rfl⟩))
      rcases gl_runBatches_freeze hp with ⟨f1, f2, f3⟩
      exact ⟨f1.trans h1, f3.trans h2, f2.trans h3, gl_runBatches_processed_mono hp⟩
    · have hwk : w ∈ ((rest.flatten).map Prod.fst) :=
        List.mem_map.mpr ⟨(w, f), hw, rfl⟩
      have hnb : w ∉ b.map Prod.fst := fun hmem => hdisj hmem hwk
      have hnd3 : w ∉ (toDispatch st b).map Prod.fst := fun hmem =>
        hnb (List.Sublist.mem hmem (List.Sublist.map Prod.fst (List.filter_sublist b)))
      have hp2 : w ∉ (runBatch conn st res b).1.processed := by
        rw [gl_runBatch_eq]
        intro hc
        rcases gl_foldRecord_processed_iff.mp hc with hc | hc
        · exact hproc hc
        · exact hnd3 hc
      rcases ih hnd2 hw hp2 hpw with ⟨i1, i2, i3, i4⟩
      rcases gl_runBatch_eq ▸ gl_foldRecord_freeze hnd3 with ⟨f1, f2, f3⟩
      exact ⟨i1, i2, i3.trans f2, i4⟩

theorem gl_runBatches_hit_failure {conn : String → Option String × List String}
    {w f : String} {exs : List String} {bs : List (List (String × String))} :
    ∀ {st : BState} {res : List (String × String × String × List String)},
      ((bs.flatten).map Prod.fst).Nodup → (w, f) ∈ bs.flatten → w ∉ st.processed →
      process_word conn w = (none, exs) →
      w ∈ (runBatches conn bs st res).st.problematic ∧
      dget (runBatches conn bs st res).st.translations w = dget st.translations w ∧
      dget (runBatches conn bs st res).results w = dget res w ∧
      w ∈ (runBatches conn bs st res).st.processed := by
  induction bs with
  | nil => intro st res _ hw; simp at hw
  | cons b rest ih =>
    intro st res hnd hw hproc hpw
    rw [List.flatten_cons, List.map_append, List.nodup_append] at hnd
    rcases hnd with ⟨hnd1, hnd2, hdisj⟩
    rw [gl_runBatches_cons]
    simp only
    rcases List.mem_append.mp hw with hw | hw
    · have hmem : (w, f) ∈ toDispatch st b := gl_mem_toDispatch.mpr ⟨hw, hproc⟩
      have htodoNd : ((toDispatch st b).map Prod.fst).Nodup :=
        (List.Sublist.map Prod.fst (List.filter_sublist b)).nodup hnd1
      rcases gl_runBatch_eq ▸ gl_foldRecord_hit_failure htodoNd hmem hpw with ⟨h1, h2, h3⟩
      have hp : w ∈ (runBatch conn st res b).1.processed := by
        rw [gl_runBatch_eq]
        exact gl_foldRecord_processed_iff.mpr
          (Or.inr (List.mem_map.mpr ⟨(w, f), hmem, rfl⟩))
      rcases gl_runBatches_freeze hp with ⟨f1, f2, f3⟩
      exact ⟨f2.mpr h1, f1.trans h2, f3.trans h3, gl_runBatches_processed_mono hp⟩
    · have hwk : w ∈ ((rest.flatten).map Prod.fst) :=
        List.mem_map.mpr ⟨(w, f), hw, rfl⟩
      have hnb : w ∉ b.map Prod.fst := fun hmem => hdisj hmem hwk
      have hnd3 : w ∉ (toDispatch st b).map Prod.fst := fun hmem =>
        hnb (List.Sublist.mem hmem (List.Sublist.map Prod.fst (List.filter_sublist b)))
      have hp2 : w ∉ (runBatch conn st res b).1.processed := by
        rw [gl_runBatch_eq]
        intro hc
        rcases gl_foldRecord_processed_iff.mp hc with hc | hc
        · exact hproc hc
        · exact hnd3 hc
      rcases ih hnd2 hw hp2 hpw with ⟨i1, i2, i3, i4⟩
      rcases gl_runBatch_eq ▸ gl_foldRecord_freeze hnd3 with ⟨f1, f2, f3⟩
      exact ⟨i1, i2.trans f1, i3.trans f3, i4⟩

theorem gl_runBatches_wf {conn : String → Option String × List String}
    {bs : List (List (String × String))} :
    ∀ {st : BState} {res : List (String × String × String × List String)},
      Wf st → Wf (runBatches conn bs st res).st := by
  induction bs with
  | nil => intro st res h; exact h
  | cons b rest ih =>
    intro st res h
    rw [gl_runBatches_cons]
    exact ih (gl_runBatch_eq ▸ gl_foldRecord_wf h)

theorem runBatches_invAuto {conn : String → Option String × List String}
    {bs : List (List (String × String))} :
    ∀ {st : BState} {res : List (String × String × String × List String)},
      InvAuto st → ((bs.flatten).map Prod.fst).Nodup →
      (∀ c ∈ checkpoints (runBatches conn bs st res).trace, InvAuto c) ∧
      InvAuto (runBatches conn bs st res).st := by
  induction bs with
  | nil =>
    intro st res h _
    exact ⟨by simp [gl_runBatches_nil, checkpoints], h⟩
  | cons b rest ih =>
    intro st res h hnd
    rw [List.flatten_cons, List.map_append, List.nodup_append] at hnd
    rcases hnd with ⟨hnd1, hnd2, _⟩
    have htodoNd : ((toDispatch st b).map Prod.fst).Nodup :=
      (List.Sublist.map Prod.fst (List.filter_sublist b)).nodup hnd1
    have hfresh : ∀ p ∈ toDispatch st b,
        p.1 ∉ dkeys st.translations ∧ p.1 ∉ st.problematic := by
      intro p hp
      have hnp : p.1 ∉ st.processed := (gl_mem_toDispatch.mp hp).2
      exact ⟨fun hmem => hnp (h.1.1 p.1 hmem), fun hmem => hnp (h.2 p.1 hmem)⟩
    have hstep : InvAuto (runBatch conn st res b).1 :=
      gl_runBatch_eq ▸ foldRecord_invAuto h htodoNd hfresh
    rcases ih hstep hnd2 with ⟨ih1, ih2⟩
    rw [gl_runBatches_cons]
    simp only
    refine ⟨?_, ih2⟩
    intro c hc
    rw [gl_checkpoints_append, gl_checkpoints_map_dispatch, List.nil_append] at hc
    have hcons : checkpoints (Ev.checkpoint (runBatch conn st res b).1
        (runBatch conn st res b).2.length ::
        (runBatches conn rest (runBatch conn st res b).1
          (runBatch conn st res b).2).trace) =
        (runBatch conn st res b).1 :: checkpoints (runBatches conn rest
          (runBatch conn st res b).1 (runBatch conn st res b).2).trace := by
      simp [checkpoints, List.filterMap_cons]
    rw [hcons] at hc
    rcases List.mem_cons.mp hc with rfl | hc
    · exact hstep
    · exact ih1 c hc

theorem gl_runBatches_checkpoint_count {conn : String → Option String × List String}
    {bs : List (List (String × String))} :
    ∀ {st : BState} {res : List (String × String × String × List String)},
      (checkpoints (runBatches conn bs st res).trace).length = bs.length := by
  induction bs with
  | nil => intro st res; simp [gl_runBatches_nil, checkpoints]
  | cons b rest ih =>
    intro st res
    rw [gl_runBatches_cons]
    simp only
    rw [gl_checkpoints_append, gl_checkpoints_map_dispatch]
    simpa [checkpoints, List.filterMap_cons] using ih

theorem gl_runBatches_append {conn : String → Option String × List String}
    {l1 l2 : List (List (String × String))} :
    ∀ {st : BState} {res : List (String × String × String × List String)},
      runBatches conn (l1 ++ l2) st res =
        ⟨(runBatches conn l2 (runBatches conn l1 st res).st
            (runBatches conn l1 st res).results).st,
          (runBatches conn l2 (runBatches conn l1 st res).st
            (runBatches conn l1 st res).results).results,
          (runBatches conn l1 st res).trace ++
            (runBatches conn l2 (runBatches conn l1 st res).st
              (runBatches conn l1 st res).results).trace⟩ := by
  induction l1 with
  | nil => intro st res; simp [gl_runBatches_nil]
  | cons b rest ih =>
    intro st res
    rw [List.cons_append, gl_runBatches_cons, gl_runBatches_cons, ih]
    simp

end Glos

/-! ### Lemmas about the glosbe `main` -/

namespace Glos

theorem dispatches_tail_events {ws : List String}
    {es : List (String × String × String × List String)} :
    dispatches [Ev.report ws, Ev.sink es, Ev.report ws, Ev.sink es] = [] := rfl

theorem gl_mainRun_dispatches {conn : String → Option String × List String} {s0 : BState}
    {lines : List String} :
    dispatches (mainRun conn s0 lines).trace =
      if (words_to_process s0 (load_word_list lines)).isEmpty then []
      else dispatches
        (process_words conn 25 (words_to_process s0 (load_word_list lines)) s0).trace := by
  by_cases h : (words_to_process s0 (load_word_list lines)).isEmpty
  · rw [if_pos h, mainRun]
    simp [h, dispatches]
  · rw [if_neg h, mainRun]
    simp only [h, Bool.false_eq_true, if_false]
    rw [gl_dispatches_append]
    simp [dispatches]

theorem gl_mainRun_st {conn : String → Option String × List String} {s0 : BState}
    {lines : List String} :
    (mainRun conn s0 lines).st =
      if (words_to_process s0 (load_word_list lines)).isEmpty then s0
      else (process_words conn 25 (words_to_process s0 (load_word_list lines)) s0).st := by
  by_cases h : (words_to_process s0 (load_word_list lines)).isEmpty
  · rw [if_pos h, mainRun]
    simp [h]
  · rw [if_neg h, mainRun]
    simp [h]

theorem gl_words_to_process_keys_nodup {s0 : BState} {lines : List String} :
    ((words_to_process s0 (load_word_list lines)).map Prod.fst).Nodup :=
  (List.Sublist.map Prod.fst (List.filter_sublist _)).nodup
    (load_word_list_keys_nodup lines)

theorem gl_mainRun_dispatches_nodup {conn : String → Option String × List String}
    {s0 : BState} {lines : List String} :
    (dispatches (mainRun conn s0 lines).trace).Nodup := by
  rw [gl_mainRun_dispatches]
  by_cases hw : (words_to_process s0 (load_word_list lines)).isEmpty
  · simp [hw]
  · rw [if_neg hw]
    have hsub := @gl_runBatches_dispatches_sublist conn
      (chunks 25 (words_to_process s0 (load_word_list lines))) s0 []
    rw [chunks_flatten] at hsub
    exact hsub.nodup gl_words_to_process_keys_nodup

theorem gl_mainRun_dispatch_not_processed {conn : String → Option String × List String}
    {s0 : BState} {lines : List String} {x : String}
    (h : x ∈ dispatches (mainRun conn s0 lines).trace) : x ∉ s0.processed := by
  rw [gl_mainRun_dispatches] at h
  by_cases hw : (words_to_process s0 (load_word_list lines)).isEmpty
  · rw [if_pos hw] at h
    simp at h
  · rw [if_neg hw] at h
    exact gl_runBatches_dispatch_not_processed h

theorem gl_mainRun_dispatched_processed {conn : String → Option String × List String}
    {s0 : BState} {lines : List String} {x : String}
    (h : x ∈ dispatches (mainRun conn s0 lines).trace) :
    x ∈ (mainRun conn s0 lines).st.processed := by
  rw [gl_mainRun_dispatches] at h
  rw [gl_mainRun_st]
  by_cases hw : (words_to_process s0 (load_word_list lines)).isEmpty
  · rw [if_pos hw] at h
    simp at h
  · rw [if_neg hw] at h
    rw [if_neg hw]
    exact gl_runBatches_dispatched_processed h

end Glos

/-! ### Remaining helper lemmas for the claims -/

namespace GT

theorem mainRun_checkpoints {conn : String → Option String} {s0 : BState}
    {lines : List String} :
    checkpoints (mainRun conn s0 lines).trace =
      if (words_to_process s0 (load_word_list lines)).isEmpty then []
      else checkpoints
        (process_words conn 100 (words_to_process s0 (load_word_list lines)) s0).trace := by
  by_cases h : (words_to_process s0 (load_word_list lines)).isEmpty
  · rw [if_pos h, mainRun]
    simp [h, checkpoints]
  · rw [if_neg h, mainRun]
    simp only [h, Bool.false_eq_true, if_false]
    rw [checkpoints_append]
    simp [checkpoints]

theorem words_to_process_init {pairs : List (String × String)} :
    words_to_process initState pairs = pairs := by
  rw [words_to_process, problematic_to_retry]
  show List.filterMap _ [] ++ _ = _
  rw [List.filterMap_nil, List.nil_append]
  exact List.filter_eq_self.mpr (fun a _ => rfl)

end GT

namespace Glos

theorem gl_mainRun_checkpoints {conn : String → Option String × List String} {s0 : BState}
    {lines : List String} :
    checkpoints (mainRun conn s0 lines).trace =
      if (words_to_process s0 (load_word_list lines)).isEmpty then []
      else checkpoints
        (process_words conn 25 (words_to_process s0 (load_word_list lines)) s0).trace := by
  by_cases h : (words_to_process s0 (load_word_list lines)).isEmpty
  · rw [if_pos h, mainRun]
    simp [h, checkpoints]
  · rw [if_neg h, mainRun]
    simp only [h, Bool.false_eq_true, if_false]
    rw [gl_checkpoints_append]
    simp [checkpoints]

theorem gl_words_to_process_init {pairs : List (String × String)} :
    words_to_process initState pairs = pairs := by
  rw [words_to_process]
  exact List.filter_eq_self.mpr (fun a _ => rfl)

end Glos

theorem splitFirst_append {sep : Char} {a b : List Char} (h : sep ∉ a) :
    splitFirst sep (a ++ sep :: b) = some (a, b) := by
  induction a with
  | nil =>
    rw [List.nil_append, splitFirst, if_pos rfl]
  | cons c rest ih =>
    have hc : c ≠ sep := by
      intro hh
      exact h (hh ▸ List.mem_cons_self c rest)
    have hrest : sep ∉ rest := fun hh => h (List.mem_cons_of_mem _ hh)
    rw [List.cons_append, splitFirst, if_neg hc, ih hrest]

namespace RL

theorem rate_limit_grant_ge {T : ℤ} {s : LState} : s.last + T ≤ (rate_limit T s).2 := by
  rw [rate_limit]
  by_cases h : s.clock - s.last < T
  · simp only [h, if_pos]
    linarith
  · simp only [h, if_neg, Bool.false_eq_true, not_false_iff]
    linarith [not_lt.mp h]

theorem acquireRun_cons {T d : ℤ} {ds : List ℤ} {s : LState} :
    acquireRun T s (d :: ds) =
      (rate_limit T ⟨s.clock + d, s.last, s.count⟩).2 ::
        acquireRun T (rate_limit T ⟨s.clock + d, s.last, s.count⟩).1 ds := rfl

theorem rate_limit_new_last {T : ℤ} {s : LState} :
    (rate_limit T s).1.last = (rate_limit T s).2 := rfl

theorem acquireRun_chain {T : ℤ} :
    ∀ (ds : List ℤ) (s : LState),
      List.Chain' (fun a b => a + T ≤ b) (acquireRun T s ds) := by
  intro ds
  induction ds with
  | nil => intro s; simp [acquireRun]
  | cons d ds2 ih =>
    intro s
    rw [acquireRun_cons]
    cases ds2 with
    | nil => simp [acquireRun]
    | cons d2 ds3 =>
      rw [acquireRun_cons]
      rw [List.chain'_cons]
      constructor
      · have hlast : (rate_limit T ⟨s.clock + d, s.last, s.count⟩).1.last =
            (rate_limit T ⟨s.clock + d, s.last, s.count⟩).2 := rfl
        have := @rate_limit_grant_ge T
          ⟨(rate_limit T ⟨s.clock + d, s.last, s.count⟩).1.clock + d2,
            (rate_limit T ⟨s.clock + d, s.last, s.count⟩).1.last,
            (rate_limit T ⟨s.clock + d, s.last, s.count⟩).1.count⟩
        simpa [hlast] using this
      · have := ih (rate_limit T ⟨s.clock + d, s.last, s.count⟩).1
        rw [acquireRun_cons] at this
        exact this

theorem acquireRun_length {T : ℤ} :
    ∀ (ds : List ℤ) (s : LState), (acquireRun T s ds).length = ds.length := by
  intro ds
  induction ds with
  | nil => intro s; rfl
  | cons d ds2 ih =>
    intro s
    rw [acquireRun_cons, List.length_cons, List.length_cons, ih]

theorem chain_span {T : ℤ} :
    ∀ {l : List ℤ}, List.Chain' (fun a b => a + T ≤ b) l → ∀ (h : l ≠ []),
      ((l.length - 1 : ℕ) : ℤ) * T ≤ l.getLast h - l.head h := by
  intro l
  induction l with
  | nil => intro _ h; exact absurd rfl h
  | cons a rest ih =>
    intro hc h
    cases rest with
    | nil => simp
    | cons b rest2 =>
      rw [List.chain'_cons] at hc
      have hstep := ih hc.2 (List.cons_ne_nil b rest2)
      rw [List.getLast_cons (List.cons_ne_nil b rest2)]
      have hlen : (((a :: b :: rest2).length - 1 : ℕ) : ℤ) =
          (((b :: rest2).length - 1 : ℕ) : ℤ) + 1 := by
        simp [List.length_cons]
      rw [hlen]
      have hhead : (a :: b :: rest2).head h = a := rfl
      have hhead2 : (b :: rest2).head (List.cons_ne_nil b rest2) = b := rfl
      rw [hhead]
      rw [hhead2] at hstep
      linarith [hc.1]

end RL

/-! ### The claims -/

/-- Claim C1 (code bug): the claim says the final artifact writer
(`save_yomichan`) is called exactly once with the full accumulated
succeeded mapping.  The code violates both parts.  On a resumed google
run (prior state has "a" succeeded and processed; input is "a", "b"; the
connector succeeds on "b") the single sink call receives only the
current run's results -- the entry for "b" -- even though the final
accumulated `translations` holds both "a" and "b".  And the glosbe
`main` duplicates its closing block, so its sink is called twice. -/
theorem claim1_sink_gets_current_run_only :
    GT.sinkEvents (GT.mainRun (fun w => if w = "b" then some "tb" else some "ta")
      ⟨[("a", "ta")], ["a"], []⟩ ["a", "b"]).trace = [[("b", "tb", "")]] ∧
    (GT.mainRun (fun w => if w = "b" then some "tb" else some "ta")
      ⟨[("a", "ta")], ["a"], []⟩ ["a", "b"]).st.translations =
      [("a", "ta"), ("b", "tb")] ∧
    (Glos.sinkEvents (Glos.mainRun (fun _ => (some "t", []))
      Glos.initState ["a"]).trace).length = 2 := by
  refine ⟨?_, ?_, ?_⟩ <;> decide

/-- Claim C4 (code bug): the claim (and the google code's own log
messages) say previously problematic words are retried before
never-attempted words.  The google `main` does queue them first
(`words_to_process` starts with "x"), but `process_words` filters out
every word already in `processed_words`, and a problematic word is
always also processed, so "x" is never dispatched at all -- only the
fresh word "y" is.  The glosbe `main` does not even queue problematic
words: its `words_to_process` drops "x" immediately. -/
theorem claim4_problematic_words_never_retried :
    GT.words_to_process ⟨[], ["x"], ["x"]⟩ (load_word_list ["x", "y"]) =
      [("x", ""), ("y", "")] ∧
    GT.dispatches (GT.mainRun (fun _ => some "t")
      ⟨[], ["x"], ["x"]⟩ ["x", "y"]).trace = ["y"] ∧
    Glos.words_to_process ⟨[], [], ["x"], ["x"]⟩ (load_word_list ["x", "y"]) =
      [("y", "")] ∧
    Glos.dispatches (Glos.mainRun (fun _ => (some "t", []))
      ⟨[], [], ["x"], ["x"]⟩ ["x", "y"]).trace = ["y"] := by
  refine ⟨?_, ?_, ?_, ?_⟩ <;> decide

/-- Claim C2 (counterexample): the claim says a crash at any point during
`save_progress` leaves the previously saved state intact and loadable.
Concretely, with a valid prior snapshot on disk, a crash at stage 1 of a
save (after the truncating `open('progress.json', 'w')`, before
`json.dump` finished) leaves a file that `load_progress` cannot read at
all: it raises `json.JSONDecodeError` instead of yielding the prior
state. -/
theorem claim2_crash_counterexample :
    GT.load_progress
      (fileDuringSave (FileContent.valid (GT.save_progress ⟨[("a", "ta")], ["a"], []⟩ 1))
        (GT.save_progress ⟨[("a", "ta"), ("b", "tb")], ["a", "b"], []⟩ 2) 1)
      GT.initState = Except.error LoadError.jsonDecodeError := rfl

/-- Claim C2 (amended): `save_progress` rewrites `progress.json` in place
by truncate-then-write, not write-to-temp-then-rename.  A crash between
the truncating `open` and the completed `json.dump` (stage 1) leaves a
file that fails to load -- the previously saved state is lost; only a
save that runs to completion (stage 2) reloads to exactly the state that
was saved.  Both builders behave alike. -/
theorem claim2_save_not_atomic (old : FileContent) (st : GT.BState) (n : ℕ)
    (s1 : GT.BState) (gst : Glos.BState) (gn : ℕ) (gs1 : Glos.BState) :
    (GT.load_progress (fileDuringSave old (GT.save_progress st n) 1) s1 =
      Except.error LoadError.jsonDecodeError) ∧
    (st.processed.Nodup → st.problematic.Nodup →
      GT.load_progress (fileDuringSave old (GT.save_progress st n) 2) s1 =
        Except.ok ⟨st.translations, st.processed, st.problematic⟩) ∧
    (Glos.load_progress (fileDuringSave old (Glos.save_progress gst gn) 1) gs1 =
      Except.error LoadError.jsonDecodeError) ∧
    (gst.processed.Nodup → gst.problematic.Nodup →
      Glos.load_progress (fileDuringSave old (Glos.save_progress gst gn) 2) gs1 =
        Except.ok ⟨gst.translations, gst.examples, gst.processed, gst.problematic⟩) := by
  refine ⟨rfl, ?_, rfl, ?_⟩
  · intro h1 h2
    have h3 : GT.load_progress (fileDuringSave old (GT.save_progress st n) 2) s1 =
        Except.ok ⟨st.translations, sOfList st.processed, sOfList st.problematic⟩ := rfl
    rw [h3, sOfList_eq_of_nodup h1, sOfList_eq_of_nodup h2]
  · intro h1 h2
    have h3 : Glos.load_progress (fileDuringSave old (Glos.save_progress gst gn) 2) gs1 =
        Except.ok ⟨gst.translations, gst.examples, sOfList gst.processed,
          sOfList gst.problematic⟩ := rfl
    rw [h3, sOfList_eq_of_nodup h1, sOfList_eq_of_nodup h2]

/-- Witness for `claim2_save_not_atomic` at a concrete state. -/
theorem claim2_save_not_atomic_witness :
    GT.load_progress
      (fileDuringSave FileContent.absent
        (GT.save_progress ⟨[("a", "ta")], ["a", "b"], ["b"]⟩ 1) 2) GT.initState =
      Except.ok ⟨[("a", "ta")], ["a", "b"], ["b"]⟩ :=
  (claim2_save_not_atomic FileContent.absent ⟨[("a", "ta")], ["a", "b"], ["b"]⟩ 1
    GT.initState Glos.initState 0 Glos.initState).2.1 (by decide) (by decide)

/-- Claim C5 (counterexample): the claim asserts that for the shared rate
limiter the acquisition sequence is protected by mutual exclusion and
that `M` requests always span at least `(M-1) * T`.  The glosbe client's
`_rate_limit` has no lock, so two concurrent callers can interleave as
read-read-write-write: with interval `T = 1`, `last_request_time = 0`
and the clock at 100, both callers read a large `time_since_last`, skip
the sleep, and are granted at the same instant 100.  The span of the
`M = 2` requests is `0 < (2-1) * 1`. -/
theorem claim5_rate_floor_counterexample :
    (RL.urun 1 [false, true, false, true] ⟨100, 0, ⟨0, 0⟩, ⟨0, 0⟩, []⟩).grants =
      [100, 100] ∧
    ¬ ((1 : ℤ) ≤ 100 - 100) := by
  exact ⟨rfl, by decide⟩

/-- Claim C5 (amended): the google client's `_rate_limit` holds
`self.lock` around the whole read/compute-wait/update sequence, so its
acquisitions are serialized; in any serialized run of the `_rate_limit`
body (`RL.acquireRun`, which also models the glosbe client as `main`
actually drives it, with a single worker) consecutive grants are at
least `T` apart and the wall-clock span of the `M` grants is at least
`(M-1) * T`.  The glosbe `_rate_limit` itself, lacking the lock, admits
the interleaving of `claim5_rate_floor_counterexample`. -/
theorem claim5_serialized_rate_floor (T : ℤ) (s : RL.LState) (ds : List ℤ) :
    List.Chain' (fun a b => a + T ≤ b) (RL.acquireRun T s ds) ∧
    (RL.acquireRun T s ds).length = ds.length ∧
    ∀ (h : RL.acquireRun T s ds ≠ []),
      (((RL.acquireRun T s ds).length - 1 : ℕ) : ℤ) * T ≤
        (RL.acquireRun T s ds).getLast h - (RL.acquireRun T s ds).head h := by
  refine ⟨RL.acquireRun_chain ds s, RL.acquireRun_length ds s, ?_⟩
  intro h
  exact RL.chain_span (RL.acquireRun_chain ds s) h

/-- Witness for `claim5_serialized_rate_floor`: three serialized
acquisitions with interval 7 starting at clock 100 are granted at 100,
107 and 116, spanning 16 which is at least 2 * 7. -/
theorem claim5_serialized_rate_floor_witness :
    (((RL.acquireRun 7 ⟨100, 0, 0⟩ [0, 3, 9]).length - 1 : ℕ) : ℤ) * 7 ≤
      (RL.acquireRun 7 ⟨100, 0, 0⟩ [0, 3, 9]).getLast (by decide) -
        (RL.acquireRun 7 ⟨100, 0, 0⟩ [0, 3, 9]).head (by decide) :=
  (claim5_serialized_rate_floor 7 ⟨100, 0, 0⟩ [0, 3, 9]).2.2 (by decide)

/-- Claim C7 (confirmed): `load_progress` never fails the run in the two
claimed situations, in both builders.  When no progress file exists the
`FileNotFoundError` is caught and the state stays the fresh empty one;
when a persisted record parses but lacks any of the optional fields,
each missing field is filled from `data.get(key, default)` with its
empty default. -/
theorem claim7_load_never_fails :
    (∀ s : GT.BState, GT.load_progress FileContent.absent s = Except.ok s) ∧
    (∀ (r : ProgressRecord) (s : GT.BState), ∃ st2 : GT.BState,
      GT.load_progress (FileContent.valid r) s = Except.ok st2 ∧
      (r.translations = none → st2.translations = []) ∧
      (r.processed_words = none → st2.processed = []) ∧
      (r.problematic_words = none → st2.problematic = [])) ∧
    (∀ s : Glos.BState, Glos.load_progress FileContent.absent s = Except.ok s) ∧
    (∀ (r : ProgressRecord) (s : Glos.BState), ∃ st2 : Glos.BState,
      Glos.load_progress (FileContent.valid r) s = Except.ok st2 ∧
      (r.translations = none → st2.translations = []) ∧
      (r.examples = none → st2.examples = []) ∧
      (r.processed_words = none → st2.processed = []) ∧
      (r.problematic_words = none → st2.problematic = [])) := by
  refine ⟨fun s => rfl, ?_, fun s => rfl, ?_⟩
  · intro r s
    refine ⟨⟨(r.translations).getD [], sOfList ((r.processed_words).getD []),
      sOfList ((r.problematic_words).getD [])⟩, rfl, ?_, ?_, ?_⟩
    · intro h
      rw [h]
      rfl
    · intro h
      rw [h]
      rfl
    · intro h
      rw [h]
      rfl
  · intro r s
    refine ⟨⟨(r.translations).getD [], (r.examples).getD [],
      sOfList ((r.processed_words).getD []),
      sOfList ((r.problematic_words).getD [])⟩, rfl, ?_, ?_, ?_, ?_⟩
    · intro h
      rw [h]
      rfl
    · intro h
      rw [h]
      rfl
    · intro h
      rw [h]
      rfl
    · intro h
      rw [h]
      rfl

/-- Witness for `claim7_load_never_fails`: loading a record with every
optional field missing yields the empty state. -/
theorem claim7_load_never_fails_witness :
    GT.load_progress (FileContent.valid ⟨none, none, none, none, none⟩) GT.initState =
      Except.ok GT.initState := by
  obtain ⟨st2, heq, h1, h2, h3⟩ :=
    claim7_load_never_fails.2.1 ⟨none, none, none, none, none⟩ GT.initState
  rcases st2 with ⟨t, p, pb⟩
  have e1 : t = [] := h1 rfl
  have e2 : p = [] := h2 rfl
  have e3 : pb = [] := h3 rfl
  subst e1
  subst e2
  subst e3
  exact heq

/-- Claim C3 (confirmed): neither builder ever dispatches the connector
for a key already in the loaded state's `processed_words`, and running
either `main` twice in sequence -- the second run starting from the
first run's final (persisted) state -- invokes the connector at most
once per key across both runs.  For the google builder the second part
assumes the loaded state is well formed (its sets hold no duplicates,
as every state the scripts persist does), since its retry queue
iterates the `problematic_words` set. -/
theorem claim3_idempotent_resumption (conn : String → Option String)
    (connG : String → Option String × List String) (s0 : GT.BState)
    (g0 : Glos.BState) (lines : List String) (k : String) :
    (k ∈ s0.processed → GT.dispatchCount (GT.mainRun conn s0 lines).trace k = 0) ∧
    (GT.Wf s0 →
      GT.dispatchCount (GT.mainRun conn s0 lines).trace k +
        GT.dispatchCount (GT.mainRun conn (GT.mainRun conn s0 lines).st lines).trace k
        ≤ 1) ∧
    (k ∈ g0.processed → Glos.dispatchCount (Glos.mainRun connG g0 lines).trace k = 0) ∧
    (Glos.dispatchCount (Glos.mainRun connG g0 lines).trace k +
      Glos.dispatchCount (Glos.mainRun connG (Glos.mainRun connG g0 lines).st lines).trace k
      ≤ 1) := by
  refine ⟨?_, ?_, ?_, ?_⟩
  · intro h
    exact List.count_eq_zero.mpr (fun hmem => GT.mainRun_dispatch_not_processed hmem h)
  · intro hwf
    by_cases hk : k ∈ GT.dispatches (GT.mainRun conn s0 lines).trace
    · have hp : k ∈ (GT.mainRun conn s0 lines).st.processed :=
        GT.mainRun_dispatched_processed hk
      have h2 : GT.dispatchCount (GT.mainRun conn (GT.mainRun conn s0 lines).st
          lines).trace k = 0 :=
        List.count_eq_zero.mpr (fun hmem => GT.mainRun_dispatch_not_processed hmem hp)
      have h1 : GT.dispatchCount (GT.mainRun conn s0 lines).trace k ≤ 1 :=
        List.nodup_iff_count_le_one.mp (GT.mainRun_dispatches_nodup hwf.2.1) k
      omega
    · have h1 : GT.dispatchCount (GT.mainRun conn s0 lines).trace k = 0 :=
        List.count_eq_zero.mpr hk
      have h2 : GT.dispatchCount (GT.mainRun conn (GT.mainRun conn s0 lines).st
          lines).trace k ≤ 1 :=
        List.nodup_iff_count_le_one.mp
          (GT.mainRun_dispatches_nodup (GT.mainRun_wf hwf).2.1) k
      omega
  · intro h
    exact List.count_eq_zero.mpr (fun hmem => Glos.gl_mainRun_dispatch_not_processed hmem h)
  · by_cases hk : k ∈ Glos.dispatches (Glos.mainRun connG g0 lines).trace
    · have hp : k ∈ (Glos.mainRun connG g0 lines).st.processed :=
        Glos.gl_mainRun_dispatched_processed hk
      have h2 : Glos.dispatchCount (Glos.mainRun connG (Glos.mainRun connG g0 lines).st
          lines).trace k = 0 :=
        List.count_eq_zero.mpr (fun hmem => Glos.gl_mainRun_dispatch_not_processed hmem hp)
      have h1 : Glos.dispatchCount (Glos.mainRun connG g0 lines).trace k ≤ 1 :=
        List.nodup_iff_count_le_one.mp Glos.gl_mainRun_dispatches_nodup k
      omega
    · have h1 : Glos.dispatchCount (Glos.mainRun connG g0 lines).trace k = 0 :=
        List.count_eq_zero.mpr hk
      have h2 : Glos.dispatchCount (Glos.mainRun connG (Glos.mainRun connG g0 lines).st
          lines).trace k ≤ 1 :=
        List.nodup_iff_count_le_one.mp Glos.gl_mainRun_dispatches_nodup k
      omega

/-- Witness for `claim3_idempotent_resumption`: a google state that has
already processed "a" and a glosbe state that has already processed "a",
on the word list ["a", "b"]. -/
theorem claim3_idempotent_resumption_witness :
    (GT.dispatchCount (GT.mainRun (fun _ => some "t")
      ⟨[("a", "ta")], ["a"], []⟩ ["a", "b"]).trace "a" = 0) ∧
    (GT.dispatchCount (GT.mainRun (fun _ => some "t")
        ⟨[("a", "ta")], ["a"], []⟩ ["a", "b"]).trace "b" +
      GT.dispatchCount (GT.mainRun (fun _ => some "t")
        (GT.mainRun (fun _ => some "t") ⟨[("a", "ta")], ["a"], []⟩ ["a", "b"]).st
        ["a", "b"]).trace "b" ≤ 1) ∧
    (Glos.dispatchCount (Glos.mainRun (fun _ => (some "t", []))
      ⟨[], [], ["a"], []⟩ ["a", "b"]).trace "a" = 0) := by
  refine ⟨?_, ?_, ?_⟩
  · exact (claim3_idempotent_resumption (fun _ => some "t") (fun _ => (some "t", []))
      ⟨[("a", "ta")], ["a"], []⟩ ⟨[], [], ["a"], []⟩ ["a", "b"] "a").1 (by decide)
  · exact (claim3_idempotent_resumption (fun _ => some "t") (fun _ => (some "t", []))
      ⟨[("a", "ta")], ["a"], []⟩ ⟨[], [], ["a"], []⟩ ["a", "b"] "b").2.1
      ⟨by decide, by decide, by decide⟩
  · exact (claim3_idempotent_resumption (fun _ => some "t") (fun _ => (some "t", []))
      ⟨[("a", "ta")], ["a"], []⟩ ⟨[], [], ["a"], []⟩ ["a", "b"] "a").2.2.1 (by decide)

/-- Claim C8 (confirmed): `process_words` runs the batches of
`chunks batchSize pairs` in order, and after every batch the full state
is checkpointed before the next batch is dispatched.  Formally: the
batch loop over `l1 ++ l2` produces the whole trace of `l1` -- whose
every single-batch segment is its dispatch events followed by one
`save_progress` checkpoint carrying the full updated state -- strictly
before any event of `l2`, and `l2` continues from exactly the
checkpointed state and results.  Stated for both builders;
`process_words` is by definition this batch loop on `chunks`. -/
theorem claim8_checkpoint_after_every_batch (conn : String → Option String)
    (connG : String → Option String × List String)
    (l1 l2 : List (List (String × String))) (b : List (String × String))
    (st : GT.BState) (res : List (String × String × String)) (gst : Glos.BState)
    (gres : List (String × String × String × List String))
    (batchSize : ℕ) (pairs : List (String × String)) :
    (GT.runBatches conn (l1 ++ l2) st res =
      ⟨(GT.runBatches conn l2 (GT.runBatches conn l1 st res).st
          (GT.runBatches conn l1 st res).results).st,
        (GT.runBatches conn l2 (GT.runBatches conn l1 st res).st
          (GT.runBatches conn l1 st res).results).results,
        (GT.runBatches conn l1 st res).trace ++
          (GT.runBatches conn l2 (GT.runBatches conn l1 st res).st
            (GT.runBatches conn l1 st res).results).trace⟩) ∧
    ((GT.runBatches conn [b] st res).trace =
      (GT.toDispatch st b).map (fun p => GT.Ev.dispatch p.1) ++
        [GT.Ev.checkpoint (GT.runBatch conn st res b).1
          (GT.runBatch conn st res b).2.length]) ∧
    (GT.process_words conn batchSize pairs st =
      GT.runBatches conn (chunks batchSize pairs) st []) ∧
    (Glos.runBatches connG (l1 ++ l2) gst gres =
      ⟨(Glos.runBatches connG l2 (Glos.runBatches connG l1 gst gres).st
          (Glos.runBatches connG l1 gst gres).results).st,
        (Glos.runBatches connG l2 (Glos.runBatches connG l1 gst gres).st
          (Glos.runBatches connG l1 gst gres).results).results,
        (Glos.runBatches connG l1 gst gres).trace ++
          (Glos.runBatches connG l2 (Glos.runBatches connG l1 gst gres).st
            (Glos.runBatches connG l1 gst gres).results).trace⟩) ∧
    ((Glos.runBatches connG [b] gst gres).trace =
      (Glos.toDispatch gst b).map (fun p => Glos.Ev.dispatch p.1) ++
        [Glos.Ev.checkpoint (Glos.runBatch connG gst gres b).1
          (Glos.runBatch connG gst gres b).2.length]) ∧
    (Glos.process_words connG batchSize pairs gst =
      Glos.runBatches connG (chunks batchSize pairs) gst []) := by
  exact ⟨GT.runBatches_append, rfl, rfl, Glos.gl_runBatches_append, rfl, rfl⟩

/-- Claim C6 (confirmed): failure isolation.  With a connector that
fails for the key `X` and succeeds (with a nonblank translation) for
every other key, a fresh run of either builder completes all its
batches -- one checkpoint per batch, no abort -- and ends with every
other input key in the succeeded `translations` map while `X` is in
`problematic_words` and `processed_words` but not among the succeeded
keys. -/
theorem claim6_failure_isolation (tr trG : String → String)
    (exsG : String → List String) (X : String) (lines : List String)
    (htr : ∀ w, pyStrip (tr w) ≠ "") (htrG : ∀ w, pyStrip (trG w) ≠ "")
    (hX : X ∈ (load_word_list lines).map Prod.fst) :
    (∀ w f, (w, f) ∈ load_word_list lines → w ≠ X →
      dget (GT.mainRun (fun u => if u = X then none else some (tr u))
        GT.initState lines).st.translations w = some (pyStrip (tr w))) ∧
    (X ∈ (GT.mainRun (fun u => if u = X then none else some (tr u))
        GT.initState lines).st.problematic ∧
      X ∈ (GT.mainRun (fun u => if u = X then none else some (tr u))
        GT.initState lines).st.processed ∧
      X ∉ dkeys (GT.mainRun (fun u => if u = X then none else some (tr u))
        GT.initState lines).st.translations) ∧
    ((GT.checkpoints (GT.mainRun (fun u => if u = X then none else some (tr u))
        GT.initState lines).trace).length = (chunks 100 (load_word_list lines)).length) ∧
    (∀ w f, (w, f) ∈ load_word_list lines → w ≠ X →
      dget (Glos.mainRun (fun u => if u = X then (none, exsG u)
          else (some (trG u), exsG u)) Glos.initState lines).st.translations w =
        some (pyStrip (trG w))) ∧
    (X ∈ (Glos.mainRun (fun u => if u = X then (none, exsG u)
        else (some (trG u), exsG u)) Glos.initState lines).st.problematic ∧
      X ∈ (Glos.mainRun (fun u => if u = X then (none, exsG u)
        else (some (trG u), exsG u)) Glos.initState lines).st.processed ∧
      X ∉ dkeys (Glos.mainRun (fun u => if u = X then (none, exsG u)
        else (some (trG u), exsG u)) Glos.initState lines).st.translations) ∧
    ((Glos.checkpoints (Glos.mainRun (fun u => if u = X then (none, exsG u)
        else (some (trG u), exsG u)) Glos.initState lines).trace).length =
      (chunks 25 (load_word_list lines)).length) := by
  have hpairs : load_word_list lines ≠ [] := by
    intro h
    rw [h] at hX
    simp at hX
  have hemptyG : ¬ (GT.words_to_process GT.initState (load_word_list lines)).isEmpty = true := by
    rw [GT.words_to_process_init, List.isEmpty_iff]
    exact hpairs
  have hemptyL : ¬ (Glos.words_to_process Glos.initState (load_word_list lines)).isEmpty = true := by
    rw [Glos.gl_words_to_process_init, List.isEmpty_iff]
    exact hpairs
  have hndG : (((chunks 100 (load_word_list lines)).flatten).map Prod.fst).Nodup := by
    rw [chunks_flatten]
    exact load_word_list_keys_nodup lines
  have hndL : (((chunks 25 (load_word_list lines)).flatten).map Prod.fst).Nodup := by
    rw [chunks_flatten]
    exact load_word_list_keys_nodup lines
  have hstG : (GT.mainRun (fun u => if u = X then none else some (tr u))
      GT.initState lines).st =
      (GT.runBatches (fun u => if u = X then none else some (tr u))
        (chunks 100 (load_word_list lines)) GT.initState []).st := by
    rw [GT.mainRun_st, if_neg hemptyG, GT.words_to_process_init]
    rfl
  have hstL : (Glos.mainRun (fun u => if u = X then (none, exsG u)
      else (some (trG u), exsG u)) Glos.initState lines).st =
      (Glos.runBatches (fun u => if u = X then (none, exsG u)
        else (some (trG u), exsG u)) (chunks 25 (load_word_list lines))
        Glos.initState []).st := by
    rw [Glos.gl_mainRun_st, if_neg hemptyL, Glos.gl_words_to_process_init]
    rfl
  have hpXG : GT.process_word (fun u => if u = X then none else some (tr u)) X = none := by
    show (match (if X = X then none else some (tr X)) with
      | none => none
      | some t => if pyStrip t = "" then none else some (pyStrip t)) = none
    rw [if_pos rfl]
  have hpXL : Glos.process_word (fun u => if u = X then (none, exsG u)
      else (some (trG u), exsG u)) X = (none, exsG X) := by
    show (match (if X = X then (none, exsG X) else (some (trG X), exsG X)) with
      | (none, exs) => (none, exs)
      | (some t, exs) => if pyStrip t = "" then (none, exs)
        else (some (pyStrip t), exs)) = (none, exsG X)
    rw [if_pos rfl]
  rcases List.mem_map.mp hX with ⟨pX, hpmem, hpfst⟩
  have hXpair : (X, pX.2) ∈ load_word_list lines := by
    rcases pX with ⟨x1, x2⟩
    cases hpfst
    exact hpmem
  refine ⟨?_, ?_, ?_, ?_, ?_, ?_⟩
  · intro w f hw hwX
    have hpw : GT.process_word (fun u => if u = X then none else some (tr u)) w =
        some (pyStrip (tr w)) := by
      show (match (if w = X then none else some (tr w)) with
        | none => none
        | some t => if pyStrip t = "" then none else some (pyStrip t)) = _
      rw [if_neg hwX]
      show (if pyStrip (tr w) = "" then none else some (pyStrip (tr w))) = _
      rw [if_neg (htr w)]
    rw [hstG]
    have hwmem : (w, f) ∈ (chunks 100 (load_word_list lines)).flatten := by
      rw [chunks_flatten]
      exact hw
    exact (GT.runBatches_hit_success hndG hwmem (List.not_mem_nil w) hpw).1
  · rw [hstG]
    have hXmem : (X, pX.2) ∈ (chunks 100 (load_word_list lines)).flatten := by
      rw [chunks_flatten]
      exact hXpair
    have h := @GT.runBatches_hit_failure (fun u => if u = X then none else some (tr u))
        X pX.2 (chunks 100 (load_word_list lines)) GT.initState [] hndG hXmem
        (List.not_mem_nil X) hpXG
    refine ⟨h.1, h.2.2.2, ?_⟩
    have h2 : dget (GT.runBatches (fun u => if u = X then none else some (tr u))
        (chunks 100 (load_word_list lines)) GT.initState []).st.translations X =
        none := h.2.1
    exact dget_eq_none.mp h2
  · rw [GT.mainRun_checkpoints, if_neg hemptyG, GT.words_to_process_init]
    exact GT.runBatches_checkpoint_count
  · intro w f hw hwX
    have hpw : Glos.process_word (fun u => if u = X then (none, exsG u)
        else (some (trG u), exsG u)) w = (some (pyStrip (trG w)), exsG w) := by
      show (match (if w = X then (none, exsG w) else (some (trG w), exsG w)) with
        | (none, exs) => (none, exs)
        | (some t, exs) => if pyStrip t = "" then (none, exs)
          else (some (pyStrip t), exs)) = _
      rw [if_neg hwX]
      show (if pyStrip (trG w) = "" then ((none : Option String), exsG w)
        else (some (pyStrip (trG w)), exsG w)) = _
      rw [if_neg (htrG w)]
    rw [hstL]
    have hwmem : (w, f) ∈ (chunks 25 (load_word_list lines)).flatten := by
      rw [chunks_flatten]
      exact hw
    exact (Glos.gl_runBatches_hit_success hndL hwmem (List.not_mem_nil w) hpw).1
  · rw [hstL]
    have hXmem : (X, pX.2) ∈ (chunks 25 (load_word_list lines)).flatten := by
      rw [chunks_flatten]
      exact hXpair
    have h := @Glos.gl_runBatches_hit_failure (fun u => if u = X then (none, exsG u)
          else (some (trG u), exsG u)) X pX.2 (exsG X) (chunks 25 (load_word_list lines))
        Glos.initState [] hndL hXmem (List.not_mem_nil X) hpXL
    refine ⟨h.1, h.2.2.2, ?_⟩
    have h2 : dget (Glos.runBatches (fun u => if u = X then (none, exsG u)
        else (some (trG u), exsG u)) (chunks 25 (load_word_list lines))
        Glos.initState []).st.translations X = none := h.2.1
    exact dget_eq_none.mp h2
  · rw [Glos.gl_mainRun_checkpoints, if_neg hemptyL, Glos.gl_words_to_process_init]
    exact Glos.gl_runBatches_checkpoint_count

/-- Witness for `claim6_failure_isolation`: input ["a", "x", "b"] with a
stub that fails only for "x"; "a" ends succeeded and "x" ends
problematic. -/
theorem claim6_failure_isolation_witness :
    dget (GT.mainRun (fun u => if u = "x" then none else some "tt")
      GT.initState ["a", "x", "b"]).st.translations "a" = some (pyStrip "tt") ∧
    "x" ∈ (GT.mainRun (fun u => if u = "x" then none else some "tt")
      GT.initState ["a", "x", "b"]).st.problematic := by
  have h := claim6_failure_isolation (fun _ => "tt") (fun _ => "tt") (fun _ => [])
    "x" ["a", "x", "b"] (fun _ => (by decide : pyStrip "tt" ≠ ""))
    (fun _ => (by decide : pyStrip "tt" ≠ "")) (by decide)
  exact ⟨h.1 "a" "" (by decide) (by decide), h.2.1.1⟩

/-- Claim C9 (counterexample): the claim's invariants can be broken by a
glosbe checkpoint, because the glosbe builder never removes a key from
`problematic_words` when it succeeds.  From the prior state with
`problematic_words = {"x"}` and empty `processed_words` -- a state that
satisfies the claimed invariants -- a run on the word list ["x"] with a
succeeding connector re-dispatches "x" (it is not in processed), records
its translation, and checkpoints a state in which "x" is both succeeded
and problematic: the disjointness invariant fails and the key that
"later succeeds" was not removed from `problematic`. -/
theorem claim9_counterexample :
    Glos.Inv ⟨[], [], [], ["x"]⟩ ∧
    Glos.checkpoints (Glos.mainRun (fun _ => (some "t", []))
      ⟨[], [], [], ["x"]⟩ ["x"]).trace =
      [⟨[("x", "t")], [("x", [])], ["x"], ["x"]⟩] ∧
    "x" ∈ (Glos.mainRun (fun _ => (some "t", []))
      ⟨[], [], [], ["x"]⟩ ["x"]).st.problematic ∧
    "x" ∈ dkeys (Glos.mainRun (fun _ => (some "t", []))
      ⟨[], [], [], ["x"]⟩ ["x"]).st.translations := by
  refine ⟨⟨?_, ?_⟩, ?_, ?_, ?_⟩ <;> decide

/-- Claim C9 (amended): the spec's ProgressState invariants --
succeeded keys contained in `processed`, `problematic` disjoint from the
succeeded keys -- hold at every checkpoint of the google builder's
`process_words` whenever the starting state satisfies them, and a key
that is dispatched and succeeds ends processed and not problematic (the
google builder discards it from `problematic_words` on success).  The
glosbe builder lacks that removal, so its checkpoints preserve the
invariants only under the strengthened invariant that `problematic` is
also contained in `processed` -- which every state the builders
themselves produce satisfies -- because then a problematic key is never
re-dispatched. -/
theorem claim9_invariants_at_checkpoints (conn : String → Option String)
    (connG : String → Option String × List String) (pairs : List (String × String))
    (st : GT.BState) (gst : Glos.BState) (bsz : ℕ) (w f t : String) :
    (GT.Inv st → (pairs.map Prod.fst).Nodup →
      (∀ c ∈ GT.checkpoints (GT.process_words conn bsz pairs st).trace, GT.Inv c) ∧
      GT.Inv (GT.process_words conn bsz pairs st).st) ∧
    ((pairs.map Prod.fst).Nodup → (w, f) ∈ pairs → w ∉ st.processed →
      GT.process_word conn w = some t →
      w ∈ (GT.process_words conn bsz pairs st).st.processed ∧
      w ∉ (GT.process_words conn bsz pairs st).st.problematic) ∧
    (Glos.InvAuto gst → (pairs.map Prod.fst).Nodup →
      (∀ c ∈ Glos.checkpoints (Glos.process_words connG bsz pairs gst).trace,
        Glos.InvAuto c) ∧
      Glos.InvAuto (Glos.process_words connG bsz pairs gst).st) := by
  refine ⟨?_, ?_, ?_⟩
  · intro hinv hnd
    have hnd2 : (((chunks bsz pairs).flatten).map Prod.fst).Nodup := by
      rwa [chunks_flatten]
    exact GT.runBatches_inv hinv hnd2
  · intro hnd hw hproc hpw
    have hnd2 : (((chunks bsz pairs).flatten).map Prod.fst).Nodup := by
      rwa [chunks_flatten]
    have hw2 : (w, f) ∈ (chunks bsz pairs).flatten := by
      rw [chunks_flatten]
      exact hw
    have h := @GT.runBatches_hit_success conn w f t (chunks bsz pairs) st []
      hnd2 hw2 hproc hpw
    exact ⟨h.2.2.2, h.2.1⟩
  · intro hinv hnd
    have hnd2 : (((chunks bsz pairs).flatten).map Prod.fst).Nodup := by
      rwa [chunks_flatten]
    exact Glos.runBatches_invAuto hinv hnd2

/-- Witness for `claim9_invariants_at_checkpoints` on a fresh google run
over the single word "a" with a succeeding connector. -/
theorem claim9_invariants_at_checkpoints_witness :
    GT.Inv (GT.process_words (fun _ => some "t") 100 [("a", "")] GT.initState).st ∧
    "a" ∈ (GT.process_words (fun _ => some "t") 100 [("a", "")] GT.initState).st.processed ∧
    "a" ∉ (GT.process_words (fun _ => some "t") 100 [("a", "")] GT.initState).st.problematic := by
  have h := claim9_invariants_at_checkpoints (fun _ => some "t") (fun _ => (some "t", []))
    [("a", "")] GT.initState Glos.initState 100 "a" "" "t"
  refine ⟨(h.1 ⟨by decide, by decide⟩ (by decide)).2, ?_, ?_⟩
  · exact (h.2.1 (by decide) (by decide) (by decide) (by decide)).1
  · exact (h.2.1 (by decide) (by decide) (by decide) (by decide)).2

/-- Claim C10 (counterexample): the claim says the metadata after the
first separator is passed through unchanged.  `load_word_list` strips
surrounding whitespace from the flags: the line "casa| n b" yields flags
"n b", not the unchanged remainder " n b". -/
theorem claim10_counterexample :
    load_word_list ["casa| n b"] = [("casa", "n b")] ∧
    load_word_list ["casa| n b"] ≠ [("casa", " n b")] := by
  exact ⟨by decide, by decide⟩

/-- Claim C10 (amended): `load_word_list` returns at most one pair per
key, keeping the whole pair of the key's first non-comment occurrence
(its flags are those of that first occurrence) and preserving the
relative order of first occurrences (the result is a sublist of the
parsed lines); every parsed key is represented.  A line is split on the
first separator only, so the metadata may itself contain the separator;
it is passed through after trimming surrounding whitespace (not fully
unchanged, which is what the counterexample refutes). -/
theorem claim10_dedup_keeps_first (lines : List String) (w rest : List Char)
    (p : String × String) :
    ((load_word_list lines).map Prod.fst).Nodup ∧
    (load_word_list lines).Sublist (lines.filterMap parseLine) ∧
    (p ∈ load_word_list lines →
      (lines.filterMap parseLine).find? (fun q => q.1 == p.1) = some p) ∧
    (∀ x, x ∈ (lines.filterMap parseLine).map Prod.fst →
      x ∈ (load_word_list lines).map Prod.fst) ∧
    ('|' ∉ w → pyStripL (w ++ '|' :: rest) = w ++ '|' :: rest →
      (w ++ '|' :: rest).head? ≠ some '#' →
      parseLine (String.mk (w ++ '|' :: rest)) =
        some (pyStrip (String.mk w), pyStrip (String.mk rest))) := by
  refine ⟨load_word_list_keys_nodup lines, dedupFirst_sublist _ [], ?_, ?_, ?_⟩
  · intro hp
    exact dedupFirst_find _ [] p hp
  · intro x hx
    exact dedupFirst_covers _ [] x hx (List.not_mem_nil x)
  · intro h1 h2 h3
    have htl : (String.mk (w ++ '|' :: rest)).toList = w ++ '|' :: rest := rfl
    have hts : pyStrip (String.mk (w ++ '|' :: rest)) = String.mk (w ++ '|' :: rest) := by
      rw [pyStrip, htl, h2]
    have hne : ¬ (String.mk (w ++ '|' :: rest) = "") := by
      intro hh
      have : w ++ '|' :: rest = ([] : List Char) := congrArg String.toList hh
      simp at this
    have hhd : ¬ ((String.mk (w ++ '|' :: rest)).toList.head? = some '#') := by
      rw [htl]
      exact h3
    simp only [parseLine]
    rw [hts, if_neg hne, if_neg hhd, htl, splitFirst_append h1]

/-- Witness for `claim10_dedup_keeps_first`: the list ["b|1", "a|2",
"b|3", "#c", ""] keeps ("b", "1"), and the line built from "casa",
a separator, and "n|m" parses to the word "casa" with flags "n|m". -/
theorem claim10_dedup_keeps_first_witness :
    ((["b|1", "a|2", "b|3", "#c", ""].filterMap parseLine).find?
      (fun q => q.1 == ("b", "1").1) = some ("b", "1")) ∧
    parseLine (String.mk ("casa".toList ++ '|' :: "n|m".toList)) =
      some (pyStrip (String.mk "casa".toList), pyStrip (String.mk "n|m".toList)) := by
  constructor
  · exact (claim10_dedup_keeps_first ["b|1", "a|2", "b|3", "#c", ""] [] []
      ("b", "1")).2.2.1 (by decide)
  · exact (claim10_dedup_keeps_first [] "casa".toList "n|m".toList
      ("", "")).2.2.2.2 (by decide) (by decide) (by decide)
